import Mathlib

/-!
# Verification of the icon generator (`src/icons/generate_icons.py`)

Shallow embedding of the icon rasterizer and PNG container encoder.

* Python byte strings and pixel buffers are `List ℕ` (each entry one byte /
  one channel value).
* Python `int` is `ℤ` (or `ℕ` where the source value is provably
  nonnegative); Python `float` inputs of the rasterizer are modelled as
  exact rationals `ℚ`.
* The `float` arithmetic inside the blend branch of `set_pixel` and inside
  `fill_circle`'s distance test is modelled exactly: IEEE-754 binary64
  round-to-nearest-even, expressed over `ℚ` (definitions `rnde`, `expOf`,
  `flPos`, `fl`, `blendChannel`), with `math.sqrt` as the correctly rounded
  square root (`rndeSqrt`, `sqrtF`).
* Python list writes `pixels[i] = v` are `List.set`, reads are `List.getD`.
  A separate instrumented variant (`set_pixelChecked`) makes Python's
  IndexError behaviour explicit through `Option`, for memory-safety claims.
* `zlib.crc32` is a library call; it is modelled by `crc32`, the standard
  CRC-32 (polynomial `0xEDB88320`, reflected, init/xorout `0xFFFFFFFF`),
  which is exactly what zlib computes.  `zlib.compress` is an opaque total
  byte-stream transformation, passed as a `compress` parameter.
-/

namespace GenerateIcons

/-! ## Python primitives -/

/-- Python `int(q)` on a real (here rational) argument: truncation toward zero. -/
def pyint (q : ℚ) : ℤ := if q < 0 then ⌈q⌉ else ⌊q⌋

/-- Python `range(lo, hi)` as the list `[lo, lo+1, …, hi-1]` (empty if `hi ≤ lo`). -/
def pyRange (lo hi : ℤ) : List ℤ :=
  (List.range (hi - lo).toNat).map (fun i : ℕ => lo + (i : ℤ))

/-! ## IEEE-754 binary64 model (semantics of Python `float` arithmetic)

Every Python float operation rounds its exact rational result to 53
significant bits, round-to-nearest with ties to even.  The blend branch of
`set_pixel` only ever handles values well inside the normal (finite,
non-subnormal) range of binary64, where that rounding is all there is to
IEEE-754 semantics. -/

/-- Round a rational to the nearest integer, ties to even. -/
def rnde (x : ℚ) : ℤ :=
  if x - ⌊x⌋ < 1/2 then ⌊x⌋
  else if 1/2 < x - ⌊x⌋ then ⌊x⌋ + 1
  else if ⌊x⌋ % 2 = 0 then ⌊x⌋ else ⌊x⌋ + 1

/-- `⌊log₂ q⌋` for a positive rational `q`: with `a = log₂ num` and
`b = log₂ den` we have `2^(a-b-1) < q < 2^(a-b+1)`, so a single comparison
decides the exponent. -/
def expOf (q : ℚ) : ℤ :=
  let a : ℤ := Nat.log2 q.num.natAbs
  let b : ℤ := Nat.log2 q.den
  if (2 : ℚ) ^ (a - b) ≤ q then a - b else a - b - 1

/-- Round a nonnegative rational to 53 significant bits, nearest/ties-to-even:
the value produced by an IEEE-754 binary64 operation whose exact result is `q`
(normal range). -/
def flPos (q : ℚ) : ℚ :=
  if q = 0 then 0
  else
    let k := expOf q
    (rnde (q * 2 ^ ((52 : ℤ) - k)) : ℚ) / 2 ^ ((52 : ℤ) - k)

/-- Binary64 rounding of an exact rational result (sign-symmetric wrapper;
round-to-nearest-even is symmetric under negation). -/
def fl (q : ℚ) : ℚ := if q < 0 then -flPos (-q) else flPos q

/-- The arithmetic of `set_pixel`'s partial-alpha branch:
`int(c * fa + old * (1 - fa))` with `fa = a / 255.0`, every operation in
Python float (binary64) semantics; `int` is truncation toward zero (= floor,
all values here being nonnegative). -/
def blendChannel (c old a : ℕ) : ℕ :=
  let fa := fl ((a : ℚ) / 255)
  let om := fl (1 - fa)
  (⌊fl (fl ((c : ℚ) * fa) + fl ((old : ℚ) * om))⌋).toNat

/-- Round the square root of a nonnegative rational to the nearest integer,
ties to even.  `n = ⌊√y⌋` is computed as `Nat.sqrt ⌊y⌋` (valid because
`n ≤ √y ↔ n² ≤ y ↔ n² ≤ ⌊y⌋` for integer `n ≥ 0`), and `√y` lies below /
above / exactly at the halfway point `n + 1/2` according as `y` lies below /
above / exactly at `(n + 1/2)² = n² + n + 1/4` — so no irrational square
root is ever needed. -/
def rndeSqrt (y : ℚ) : ℤ :=
  let n : ℤ := Nat.sqrt (⌊y⌋.toNat)
  if y < (n : ℚ) ^ 2 + (n : ℚ) + 1/4 then n
  else if (n : ℚ) ^ 2 + (n : ℚ) + 1/4 < y then n + 1
  else if n % 2 = 0 then n else n + 1

/-- The correctly rounded binary64 square root of a positive rational —
IEEE-754 semantics of `math.sqrt` on a nonnegative double (`math.sqrt`
raises on negative arguments; the rasterizer only takes square roots of
sums of squares, so the `q ≤ 0` branch is inert).  `√q` has binary exponent
`k = ⌊expOf q / 2⌋` (from `2^e ≤ q < 2^(e+1)` follows
`2^⌊e/2⌋ ≤ √q < 2^(⌊e/2⌋+1)`), and its 53-bit significand is
`√q · 2^(52-k) = √(q · 4^(52-k))` rounded to the nearest integer, ties to
even. -/
def sqrtF (q : ℚ) : ℚ :=
  if q ≤ 0 then 0
  else
    let k := Int.fdiv (expOf q) 2
    (rndeSqrt (q * 4 ^ ((52 : ℤ) - k)) : ℚ) / 2 ^ ((52 : ℤ) - k)

/-- The value `math.sqrt((x - cx) ** 2 + (y - cy) ** 2)` computed by
`fill_circle`'s loop body, in Python float (binary64) semantics: rounded
subtraction, correctly rounded squaring (`u ** 2` equals the rounding of
the exact `u²`, as does `u * u`), rounded addition, correctly rounded
square root. -/
def distF (cx cy : ℚ) (X Y : ℤ) : ℚ :=
  sqrtF (fl (fl (fl ((X : ℚ) - cx) ^ 2) + fl (fl ((Y : ℚ) - cy) ^ 2)))

/-! ## Canvas: `set_pixel` -/

/-- Flat index `(y * size + x) * 4` of pixel `(x, y)`. -/
def pixIdx (size : ℕ) (x y : ℤ) : ℕ := ((y * size + x) * 4).toNat

/-- `set_pixel` from `draw_gear_icon`: bounds-guarded alpha-blended write of
`(r, g, b, a)` at `(x, y)` onto the flat RGBA buffer `buf` of a
`size × size` canvas.  Mirrors the source: overwrite when `old_a == 0 or
a == 255`; weighted blend with additive clamped alpha when `0 < a < 255`
and `old_a > 0`; no-op otherwise. -/
def set_pixel (size : ℕ) (buf : List ℕ) (x y : ℤ) (r g b a : ℕ) : List ℕ :=
  if 0 ≤ x ∧ x < size ∧ 0 ≤ y ∧ y < size then
    let idx := pixIdx size x y
    let old_a := buf.getD (idx + 3) 0
    if old_a = 0 ∨ a = 255 then
      (((buf.set idx r).set (idx + 1) g).set (idx + 2) b).set (idx + 3) a
    else if 0 < a then
      let nr := blendChannel r (buf.getD idx 0) a
      let ng := blendChannel g (buf.getD (idx + 1) 0) a
      let nb := blendChannel b (buf.getD (idx + 2) 0) a
      (((buf.set idx nr).set (idx + 1) ng).set (idx + 2) nb).set (idx + 3)
        (min 255 (old_a + a))
    else buf
  else buf

/-- Channel `k` (0 = red, …, 3 = alpha) of pixel `p` in the flat buffer. -/
def cell (size : ℕ) (buf : List ℕ) (p : ℤ × ℤ) (k : ℕ) : ℕ :=
  buf.getD (pixIdx size p.1 p.2 + k) 0

/-- Instrumented `set_pixel` making Python's list-access semantics explicit:
a read `pixels[i]` or write `pixels[i] = v` at an index outside the list
raises IndexError, modelled as `none`.  Same branch structure as
`set_pixel`. -/
def set_pixelChecked (size : ℕ) (buf : List ℕ) (x y : ℤ) (r g b a : ℕ) :
    Option (List ℕ) :=
  if 0 ≤ x ∧ x < size ∧ 0 ≤ y ∧ y < size then
    let idx := pixIdx size x y
    match buf[idx + 3]? with
    | none => none
    | some old_a =>
      if old_a = 0 ∨ a = 255 then
        if idx + 3 < buf.length then
          some ((((buf.set idx r).set (idx + 1) g).set (idx + 2) b).set (idx + 3) a)
        else none
      else if 0 < a then
        match buf[idx]?, buf[idx + 1]?, buf[idx + 2]? with
        | some oldr, some oldg, some oldb =>
          if idx + 3 < buf.length then
            some ((((buf.set idx (blendChannel r oldr a)).set (idx + 1)
              (blendChannel g oldg a)).set (idx + 2) (blendChannel b oldb a)).set
                (idx + 3) (min 255 (old_a + a)))
          else none
        | _, _, _ => none
      else some buf
  else some buf

/-! ## Primitive rasterizer -/

/-- `fill_circle(cx, cy, radius, r, g, b, a)`: iterate the clipped bounding
box and blend every pixel passing the source's distance test
`math.sqrt((x - cx) ** 2 + (y - cy) ** 2) <= radius`, evaluated in binary64
float arithmetic (`distF`); the comparison itself is exact on floats.  Note
this is NOT the exact Euclidean test `d² ≤ radius²`: the rounding of the
intermediate squares, the sum and the square root can flip the comparison
at boundary pixels. -/
def fill_circle (size : ℕ) (cx cy radius : ℚ) (r g b a : ℕ) (buf : List ℕ) :
    List ℕ :=
  (pyRange (max 0 (pyint (cy - radius - 1))) (min size (pyint (cy + radius + 2)))).foldl
    (fun bufy (Y : ℤ) =>
      (pyRange (max 0 (pyint (cx - radius - 1))) (min size (pyint (cx + radius + 2)))).foldl
        (fun bufx (X : ℤ) =>
          if distF cx cy X Y ≤ radius then set_pixel size bufx X Y r g b a else bufx)
        bufy)
    buf

/-- `fill_rect(x1, y1, x2, y2, r, g, b, a)`: blend every pixel of the
half-open rectangle, truncated by `int()` and clipped to the canvas. -/
def fill_rect (size : ℕ) (x1 y1 x2 y2 : ℚ) (r g b a : ℕ) (buf : List ℕ) :
    List ℕ :=
  (pyRange (max 0 (pyint y1)) (min size (pyint y2))).foldl
    (fun bufy (Y : ℤ) =>
      (pyRange (max 0 (pyint x1)) (min size (pyint x2))).foldl
        (fun bufx (X : ℤ) => set_pixel size bufx X Y r g b a)
        bufy)
    buf

/-- The row-major list of `(x, y)` pairs visited by a nested
`for y in range(ylo, yhi): for x in range(xlo, xhi)` loop. -/
def gridCoords (xlo xhi ylo yhi : ℤ) : List (ℤ × ℤ) :=
  (pyRange ylo yhi).foldr (fun y acc => (pyRange xlo xhi).map (fun x => (x, y)) ++ acc) []

/-! ## Glyph composer -/

/-- Letter "i": top bar, centered vertical bar, bottom bar.  `//` of the
source is Python floor division, i.e. `Int.fdiv`. -/
def draw_letter_i (size : ℕ) (sx sy w h : ℤ) (color : ℕ × ℕ × ℕ)
    (buf : List ℕ) : List ℕ :=
  let bar_w := max 2 (Int.fdiv w 3)
  let b1 := fill_rect size (sx : ℚ) (sy : ℚ) ((sx + w : ℤ) : ℚ) ((sy + bar_w : ℤ) : ℚ)
    color.1 color.2.1 color.2.2 255 buf
  let b2 := fill_rect size ((sx + Int.fdiv w 2 - Int.fdiv bar_w 2 : ℤ) : ℚ) (sy : ℚ)
    ((sx + Int.fdiv w 2 + Int.fdiv bar_w 2 + 1 : ℤ) : ℚ) ((sy + h : ℤ) : ℚ)
    color.1 color.2.1 color.2.2 255 b1
  fill_rect size (sx : ℚ) ((sy + h - bar_w : ℤ) : ℚ) ((sx + w : ℤ) : ℚ) ((sy + h : ℤ) : ℚ)
    color.1 color.2.1 color.2.2 255 b2

/-- Letter "n": left vertical, right vertical, top connector. -/
def draw_letter_n (size : ℕ) (sx sy w h : ℤ) (color : ℕ × ℕ × ℕ)
    (buf : List ℕ) : List ℕ :=
  let bar_w := max 2 (Int.fdiv w 4)
  let b1 := fill_rect size (sx : ℚ) (sy : ℚ) ((sx + bar_w : ℤ) : ℚ) ((sy + h : ℤ) : ℚ)
    color.1 color.2.1 color.2.2 255 buf
  let b2 := fill_rect size ((sx + w - bar_w : ℤ) : ℚ) (sy : ℚ) ((sx + w : ℤ) : ℚ)
    ((sy + h : ℤ) : ℚ) color.1 color.2.1 color.2.2 255 b1
  fill_rect size (sx : ℚ) (sy : ℚ) ((sx + w : ℤ) : ℚ) ((sy + bar_w : ℤ) : ℚ)
    color.1 color.2.1 color.2.2 255 b2

/-- Letter "s": top bar, upper-left vertical, middle bar, lower-right
vertical, bottom bar. -/
def draw_letter_s (size : ℕ) (sx sy w h : ℤ) (color : ℕ × ℕ × ℕ)
    (buf : List ℕ) : List ℕ :=
  let bar_w := max 2 (Int.fdiv w 4)
  let mid := sy + Int.fdiv h 2
  let b1 := fill_rect size (sx : ℚ) (sy : ℚ) ((sx + w : ℤ) : ℚ) ((sy + bar_w : ℤ) : ℚ)
    color.1 color.2.1 color.2.2 255 buf
  let b2 := fill_rect size (sx : ℚ) (sy : ℚ) ((sx + bar_w : ℤ) : ℚ) (mid : ℚ)
    color.1 color.2.1 color.2.2 255 b1
  let b3 := fill_rect size (sx : ℚ) ((mid - Int.fdiv bar_w 2 : ℤ) : ℚ) ((sx + w : ℤ) : ℚ)
    ((mid + Int.fdiv bar_w 2 + 1 : ℤ) : ℚ) color.1 color.2.1 color.2.2 255 b2
  let b4 := fill_rect size ((sx + w - bar_w : ℤ) : ℚ) (mid : ℚ) ((sx + w : ℤ) : ℚ)
    ((sy + h : ℤ) : ℚ) color.1 color.2.1 color.2.2 255 b3
  fill_rect size (sx : ℚ) ((sy + h - bar_w : ℤ) : ℚ) ((sx + w : ℤ) : ℚ) ((sy + h : ℤ) : ℚ)
    color.1 color.2.1 color.2.2 255 b4

/-! ## Icon composer

`math.pi`, `math.cos` and `math.sin` are transcendental library functions;
they enter `draw_gear_icon` only through the tooth-center coordinates.  They
are modelled as parameters: `piQ` for the float constant `math.pi`, `cosF`
and `sinF` for the two (deterministic, pure) library functions.  All other
geometry is exact rational arithmetic. -/

/-- `draw_gear_icon(size, fg_color, bg_color, text_color)`: gear teeth,
body, center hole, text background rectangle, then the letters "i", "n",
"s", onto a zero-initialized `size × size` RGBA buffer.
(The source also assigns `tooth_h = size * 0.12` but never uses it.)
Caveat: the derived geometry (`size / 2`, `size * 0.42`, `2 * pi * i / 8`,
`cx + outer_r * cos(angle)`, …) is computed here in exact rational
arithmetic, where the program computes per-operation-rounded binary64
values; the two can differ in the low bits of the coordinates fed to the
rasterizer, so this is a model of the composer's structure, not a bit-exact
embedding of its intermediate values.  (It is bit-exact for `size = 0`, and
the discrepancy is immaterial to determinism claims: both versions are
pure functions of the inputs.) -/
def draw_gear_icon (piQ : ℚ) (cosF sinF : ℚ → ℚ) (size : ℕ)
    (fg_color bg_color text_color : ℕ × ℕ × ℕ) : List ℕ :=
  let pixels : List ℕ := List.replicate (size * size * 4) 0
  let cx : ℚ := (size : ℚ) / 2
  let cy : ℚ := (size : ℚ) / 2
  let outer_r : ℚ := (size : ℚ) * (42 / 100)
  let inner_r : ℚ := (size : ℚ) * (30 / 100)
  let hole_r : ℚ := (size : ℚ) * (15 / 100)
  let n_teeth : ℕ := 8
  let tooth_w : ℚ := (size : ℚ) * (10 / 100)
  let afterTeeth := (List.range n_teeth).foldl
    (fun b i =>
      let angle : ℚ := 2 * piQ * (i : ℚ) / (n_teeth : ℚ)
      let tx := cx + outer_r * cosF angle
      let ty := cy + outer_r * sinF angle
      fill_circle size tx ty tooth_w fg_color.1 fg_color.2.1 fg_color.2.2 255 b)
    pixels
  let afterBody := fill_circle size cx cy inner_r
    fg_color.1 fg_color.2.1 fg_color.2.2 255 afterTeeth
  let afterHole := fill_circle size cx cy hole_r
    bg_color.1 bg_color.2.1 bg_color.2.2 255 afterBody
  let text_y := pyint ((size : ℚ) * (70 / 100))
  let text_x_start := pyint ((size : ℚ) * (22 / 100))
  let char_w := pyint ((size : ℚ) * (13 / 100))
  let char_h := pyint ((size : ℚ) * (18 / 100))
  let afterBgRect := fill_rect size ((text_x_start - 2 : ℤ) : ℚ) ((text_y - 2 : ℤ) : ℚ)
    ((text_x_start + char_w * 3 + pyint ((size : ℚ) * (8 / 100)) + 2 : ℤ) : ℚ)
    ((text_y + char_h + 2 : ℤ) : ℚ)
    bg_color.1 bg_color.2.1 bg_color.2.2 255 afterHole
  let spacing := pyint ((size : ℚ) * (3 / 100))
  let x0 := text_x_start
  let b1 := draw_letter_i size x0 text_y char_w char_h text_color afterBgRect
  let x1 := x0 + char_w + spacing
  let b2 := draw_letter_n size x1 text_y char_w char_h text_color b1
  let x2 := x1 + char_w + spacing
  draw_letter_s size x2 text_y char_w char_h text_color b2

/-! ## Container encoder -/

/-- `struct.pack('>I', n)`: the 4 big-endian bytes of `n` (the source only
packs values below `2^32`; `struct.pack` would raise otherwise). -/
def be32 (n : ℕ) : List ℕ :=
  [n / 2 ^ 24 % 256, n / 2 ^ 16 % 256, n / 2 ^ 8 % 256, n % 256]

/-- One bit-step of the reflected CRC-32 polynomial `0xEDB88320`. -/
def crcBit (c : ℕ) : ℕ := if c % 2 = 1 then (c / 2) ^^^ 0xEDB88320 else c / 2

/-- `k` bit-steps. -/
def crcBits : ℕ → ℕ → ℕ
  | 0, c => c
  | k + 1, c => crcBits k (crcBit c)

/-- Models `zlib.crc32(data) & 0xffffffff`: the standard CRC-32 checksum
(reflected polynomial `0xEDB88320`, initial value and final xor
`0xFFFFFFFF`), one xor plus eight bit-steps per input byte.  Inputs are
bytes, hence the `% 256`. -/
def crc32 (data : List ℕ) : ℕ :=
  (data.foldl (fun c byt => crcBits 8 (c ^^^ byt % 256)) 0xFFFFFFFF) ^^^ 0xFFFFFFFF

/-- The local `chunk(chunk_type, data)` of `create_png`: 4-byte big-endian
payload length, then `chunk_type ++ data`, then the 4 big-endian CRC-32
bytes of `chunk_type ++ data` (`& 0xffffffff` is `% 2^32`). -/
def chunk (chunk_type data : List ℕ) : List ℕ :=
  let c := chunk_type ++ data
  let crc := be32 (crc32 c % 2 ^ 32)
  be32 data.length ++ c ++ crc

/-- The 8-byte PNG signature `b'\x89PNG\r\n\x1a\n'`. -/
def pngHeader : List ℕ := [137, 80, 78, 71, 13, 10, 26, 10]

/-- `bytes(l)`: Python raises ValueError unless every entry is a byte. -/
def pyBytes (l : List ℕ) : Option (List ℕ) :=
  if l.all (· < 256) then some l else none

/-- One scanline: leading filter byte `0`, then for each `x` the 4-byte
slice `pixels[idx : idx+4]` (Python slicing silently truncates past the end
of the list, exactly as `List.drop/take` do). -/
def buildRow (width : ℕ) (pixels : List ℕ) (y : ℕ) (acc : List ℕ) :
    Option (List ℕ) :=
  (List.range width).foldlM
    (fun r x =>
      match pyBytes ((pixels.drop ((y * width + x) * 4)).take 4) with
      | none => none
      | some s => some (r ++ s))
    (acc ++ [0])

/-- The uncompressed scanline stream of `create_png`. -/
def buildRaw (width height : ℕ) (pixels : List ℕ) : Option (List ℕ) :=
  (List.range height).foldlM (fun raw y => buildRow width pixels y raw) []

/-- `create_png(width, height, pixels)`: signature, IHDR, IDAT (compressed
scanlines), IEND.  `zlib.compress` is the opaque parameter `compress`.
Failure (`none`) models the exceptions the Python code can raise: packing a
width or height not below `2^32`, or a channel value that is not a byte. -/
def create_png (compress : List ℕ → List ℕ) (width height : ℕ)
    (pixels : List ℕ) : Option (List ℕ) :=
  if width < 2 ^ 32 ∧ height < 2 ^ 32 then
    match buildRaw width height pixels with
    | none => none
    | some raw =>
      some (pngHeader
        ++ chunk [73, 72, 68, 82] (be32 width ++ be32 height ++ [8, 6, 0, 0, 0])
        ++ chunk [73, 68, 65, 84] (compress raw)
        ++ chunk [73, 69, 78, 68] [])
  else none

/-! ## Buffer index bookkeeping -/

theorem getD_set_ne (l : List ℕ) (i j v : ℕ) (h : i ≠ j) :
    (l.set i v).getD j 0 = l.getD j 0 := by
  rw [List.getD_eq_getElem?_getD, List.getD_eq_getElem?_getD, List.getElem?_set_ne h]

theorem getD_set_self (l : List ℕ) (i v : ℕ) (h : i < l.length) :
    (l.set i v).getD i 0 = v := by
  rw [List.getD_eq_getElem?_getD, List.getElem?_set_eq_of_lt v h]
  rfl

theorem pixIdx_eq (size : ℕ) (x y : ℤ) (hx : 0 ≤ x) (hy : 0 ≤ y) :
    pixIdx size x y = (y.toNat * size + x.toNat) * 4 := by
  have h1 : (y * (size : ℤ) + x) * 4 = (((y.toNat * size + x.toNat) * 4 : ℕ) : ℤ) := by
    push_cast [Int.toNat_of_nonneg hx, Int.toNat_of_nonneg hy]
    ring
  rw [pixIdx, h1, Int.toNat_natCast]

theorem pixIdx_add_lt (size : ℕ) {x y : ℤ} (hx : 0 ≤ x) (hx2 : x < size)
    (hy : 0 ≤ y) (hy2 : y < size) {k : ℕ} (hk : k < 4) :
    pixIdx size x y + k < size * size * 4 := by
  rw [pixIdx_eq size x y hx hy]
  have hX : x.toNat < size := by omega
  have hY : y.toNat < size := by omega
  have h1 : (y.toNat + 1) * size ≤ size * size := Nat.mul_le_mul_right size (by omega)
  have h2 : (y.toNat + 1) * size = y.toNat * size + size := by ring
  omega

theorem rowMajor_ne {size X Y PX PY : ℕ} (hX : X < size) (hPX : PX < size)
    (h : ¬(X = PX ∧ Y = PY)) : Y * size + X ≠ PY * size + PX := by
  rcases Nat.lt_trichotomy Y PY with hYP | hYP | hYP
  · have h1 : (Y + 1) * size ≤ PY * size := Nat.mul_le_mul_right size (by omega)
    have h2 : (Y + 1) * size = Y * size + size := by ring
    omega
  · subst hYP
    omega
  · have h1 : (PY + 1) * size ≤ Y * size := Nat.mul_le_mul_right size (by omega)
    have h2 : (PY + 1) * size = PY * size + size := by ring
    omega

theorem pixIdx_add_ne (size : ℕ) {x y px py : ℤ}
    (hin : 0 ≤ x ∧ x < size ∧ 0 ≤ y ∧ y < size)
    (hp : 0 ≤ px ∧ px < size ∧ 0 ≤ py ∧ py < size)
    (hne : ¬(x = px ∧ y = py)) {k j : ℕ} (hk : k < 4) (hj : j < 4) :
    pixIdx size x y + k ≠ pixIdx size px py + j := by
  obtain ⟨hx, hx2, hy, hy2⟩ := hin
  obtain ⟨hpx, hpx2, hpy, hpy2⟩ := hp
  rw [pixIdx_eq size x y hx hy, pixIdx_eq size px py hpx hpy]
  have hX : x.toNat < size := by omega
  have hPX : px.toNat < size := by omega
  have hne' : ¬(x.toNat = px.toNat ∧ y.toNat = py.toNat) := by
    rintro ⟨e1, e2⟩
    exact hne ⟨by omega, by omega⟩
  have := rowMajor_ne hX hPX hne'
  omega

/-- Reading one of the four channels right after the four writes of a
`set_pixel` branch. -/
theorem cell_write4 (buf : List ℕ) (idx : ℕ) (h3 : idx + 3 < buf.length)
    (v0 v1 v2 v3 : ℕ) (k : ℕ) (hk : k < 4) :
    ((((buf.set idx v0).set (idx + 1) v1).set (idx + 2) v2).set (idx + 3) v3).getD
        (idx + k) 0 =
      if k = 0 then v0 else if k = 1 then v1 else if k = 2 then v2 else v3 := by
  interval_cases k
  · rw [getD_set_ne _ _ _ _ (by omega), getD_set_ne _ _ _ _ (by omega),
      getD_set_ne _ _ _ _ (by omega)]
    simp only [Nat.add_zero]
    rw [getD_set_self _ _ _ (by omega)]
    simp
  · rw [getD_set_ne _ _ _ _ (by omega), getD_set_ne _ _ _ _ (by omega),
      getD_set_self _ _ _ (by simp [List.length_set]; omega)]
    simp
  · rw [getD_set_ne _ _ _ _ (by omega),
      getD_set_self _ _ _ (by simp [List.length_set]; omega)]
    simp
  · rw [getD_set_self _ _ _ (by simp [List.length_set]; omega)]
    simp

/-! ## `set_pixel`: length preservation, frame and locality -/

theorem set_pixel_length (size : ℕ) (buf : List ℕ) (x y : ℤ) (r g b a : ℕ) :
    (set_pixel size buf x y r g b a).length = buf.length := by
  unfold set_pixel
  simp only [List.getD_eq_getElem?_getD]
  by_cases h1 : 0 ≤ x ∧ x < (size : ℤ) ∧ 0 ≤ y ∧ y < size <;>
    by_cases h2 : (buf[pixIdx size x y + 3]?).getD 0 = 0 ∨ a = 255 <;>
      by_cases h3 : 0 < a <;>
        simp [h1, h2, h3, List.length_set]

/-- `set_pixel` at `(x, y)` does not change the channels of a different
in-bounds pixel `p`. -/
theorem cell_set_pixel_ne (size : ℕ) (buf : List ℕ) (x y : ℤ) (r g b a : ℕ)
    (p : ℤ × ℤ) (hp : 0 ≤ p.1 ∧ p.1 < size ∧ 0 ≤ p.2 ∧ p.2 < size)
    (hne : ¬(x = p.1 ∧ y = p.2)) (k : ℕ) (hk : k < 4) :
    cell size (set_pixel size buf x y r g b a) p k = cell size buf p k := by
  by_cases hin : 0 ≤ x ∧ x < size ∧ 0 ≤ y ∧ y < size
  · simp only [set_pixel, if_pos hin, cell]
    split_ifs with h1 h2
    · rw [getD_set_ne _ _ _ _ (pixIdx_add_ne size hin hp hne (by omega) hk),
        getD_set_ne _ _ _ _ (pixIdx_add_ne size hin hp hne (by omega) hk),
        getD_set_ne _ _ _ _ (pixIdx_add_ne size hin hp hne (by omega) hk)]
      have h0 := pixIdx_add_ne size hin hp hne (j := k) (by omega : (0 : ℕ) < 4) hk
      rw [getD_set_ne _ _ _ _ (by omega)]
    · rw [getD_set_ne _ _ _ _ (pixIdx_add_ne size hin hp hne (by omega) hk),
        getD_set_ne _ _ _ _ (pixIdx_add_ne size hin hp hne (by omega) hk),
        getD_set_ne _ _ _ _ (pixIdx_add_ne size hin hp hne (by omega) hk)]
      have h0 := pixIdx_add_ne size hin hp hne (j := k) (by omega : (0 : ℕ) < 4) hk
      rw [getD_set_ne _ _ _ _ (by omega)]
    · rfl
  · simp only [set_pixel, if_neg hin]

/-- The channels of pixel `(x, y)` after `set_pixel` depend only on the
channels of `(x, y)` before it (for two buffers of the canvas length). -/
theorem cell_set_pixel_agree (size : ℕ) (b1 b2 : List ℕ) (x y : ℤ) (r g b a : ℕ)
    (hlen1 : b1.length = size * size * 4) (hlen2 : b2.length = size * size * 4)
    (hag : ∀ j, j < 4 → cell size b1 (x, y) j = cell size b2 (x, y) j)
    (k : ℕ) (hk : k < 4) :
    cell size (set_pixel size b1 x y r g b a) (x, y) k
      = cell size (set_pixel size b2 x y r g b a) (x, y) k := by
  by_cases hin : 0 ≤ x ∧ x < size ∧ 0 ≤ y ∧ y < size
  · obtain ⟨hx, hx2, hy, hy2⟩ := hin
    have hidx3 : pixIdx size x y + 3 < b1.length := by
      rw [hlen1]; exact pixIdx_add_lt size hx hx2 hy hy2 (by omega)
    have hidx3' : pixIdx size x y + 3 < b2.length := by
      rw [hlen2]; exact pixIdx_add_lt size hx hx2 hy hy2 (by omega)
    have e0 : b1.getD (pixIdx size x y) 0 = b2.getD (pixIdx size x y) 0 := by
      have := hag 0 (by omega); simpa [cell] using this
    have e1 : b1.getD (pixIdx size x y + 1) 0 = b2.getD (pixIdx size x y + 1) 0 := by
      have := hag 1 (by omega); simpa [cell] using this
    have e2 : b1.getD (pixIdx size x y + 2) 0 = b2.getD (pixIdx size x y + 2) 0 := by
      have := hag 2 (by omega); simpa [cell] using this
    have e3 : b1.getD (pixIdx size x y + 3) 0 = b2.getD (pixIdx size x y + 3) 0 := by
      have := hag 3 (by omega); simpa [cell] using this
    simp only [set_pixel, if_pos (⟨hx, hx2, hy, hy2⟩ : 0 ≤ x ∧ x < (size : ℤ) ∧ 0 ≤ y ∧ y < size),
      e0, e1, e2, e3, cell]
    split_ifs with h1 h2
    · rw [cell_write4 b1 _ hidx3 _ _ _ _ _ hk, cell_write4 b2 _ hidx3' _ _ _ _ _ hk]
    · rw [cell_write4 b1 _ hidx3 _ _ _ _ _ hk, cell_write4 b2 _ hidx3' _ _ _ _ _ hk]
    · exact hag k hk
  · simp only [set_pixel, if_neg hin]
    exact hag k hk

/-! ## Folds of pixel-steps over coordinate lists -/

/-- Folding a pixel-local step over a list of coordinates not containing `p`
leaves pixel `p` unchanged. -/
theorem cell_foldl_frame (size : ℕ) (step : List ℕ → ℤ × ℤ → List ℕ) (p : ℤ × ℤ)
    (hframe : ∀ b q, q ≠ p → ∀ k, k < 4 → cell size (step b q) p k = cell size b p k)
    (L : List (ℤ × ℤ)) (hp : p ∉ L) (buf : List ℕ) (k : ℕ) (hk : k < 4) :
    cell size (L.foldl step buf) p k = cell size buf p k := by
  induction L generalizing buf with
  | nil => rfl
  | cons q L ih =>
    rw [List.foldl_cons,
      ih (fun h => hp (List.mem_cons_of_mem q h)) (step buf q),
      hframe buf q (fun h => hp (h ▸ List.mem_cons_self q L)) k hk]

theorem foldl_step_length (step : List ℕ → ℤ × ℤ → List ℕ)
    (hlen : ∀ b q, (step b q).length = b.length)
    (L : List (ℤ × ℤ)) (buf : List ℕ) :
    (L.foldl step buf).length = buf.length := by
  induction L generalizing buf with
  | nil => rfl
  | cons q L ih => rw [List.foldl_cons, ih (step buf q), hlen buf q]

/-- Folding a pixel-local step over a duplicate-free list containing `p`
once gives, at pixel `p`, the single application of the step to the original
buffer. -/
theorem cell_foldl_once (size N : ℕ) (step : List ℕ → ℤ × ℤ → List ℕ) (p : ℤ × ℤ)
    (hlen : ∀ b q, (step b q).length = b.length)
    (hframe : ∀ b q, q ≠ p → ∀ k, k < 4 → cell size (step b q) p k = cell size b p k)
    (hloc : ∀ b1 b2, b1.length = N → b2.length = N →
      (∀ j, j < 4 → cell size b1 p j = cell size b2 p j) →
      ∀ k, k < 4 → cell size (step b1 p) p k = cell size (step b2 p) p k)
    (L : List (ℤ × ℤ)) (hnd : L.Nodup) (hmem : p ∈ L) (buf : List ℕ)
    (hbuf : buf.length = N) (k : ℕ) (hk : k < 4) :
    cell size (L.foldl step buf) p k = cell size (step buf p) p k := by
  induction L generalizing buf with
  | nil => cases hmem
  | cons q L ih =>
    rw [List.foldl_cons]
    by_cases hq : q = p
    · subst hq
      exact cell_foldl_frame size step q hframe L (List.nodup_cons.mp hnd).1
        (step buf q) k hk
    · have hmem' : p ∈ L := by
        rcases List.mem_cons.mp hmem with h | h
        · exact absurd h.symm hq
        · exact h
      rw [ih (List.nodup_cons.mp hnd).2 hmem' (step buf q) ((hlen buf q).trans hbuf)]
      exact hloc (step buf q) buf ((hlen buf q).trans hbuf) hbuf
        (fun j hj => hframe buf q hq j hj) k hk

/-! ## Coordinate-list lemmas -/

theorem mem_pyRange {lo hi a : ℤ} : a ∈ pyRange lo hi ↔ lo ≤ a ∧ a < hi := by
  simp only [pyRange, List.mem_map, List.mem_range]
  constructor
  · rintro ⟨i, hi', rfl⟩
    omega
  · intro ⟨h1, h2⟩
    exact ⟨(a - lo).toNat, by omega, by omega⟩

theorem pyRange_nodup (lo hi : ℤ) : (pyRange lo hi).Nodup :=
  List.Nodup.map (fun i j h => by omega) (List.nodup_range _)

theorem mem_blocks {xs ys : List ℤ} {q : ℤ × ℤ} :
    q ∈ ys.foldr (fun y acc => xs.map (fun x : ℤ => (x, y)) ++ acc) [] ↔
      q.1 ∈ xs ∧ q.2 ∈ ys := by
  obtain ⟨qx, qy⟩ := q
  induction ys with
  | nil => simp
  | cons y ys ih =>
    simp only [List.foldr_cons, List.mem_append, List.mem_map, List.mem_cons, ih]
    constructor
    · rintro (⟨x, hx, he⟩ | ⟨h1, h2⟩)
      · cases he
        exact ⟨hx, Or.inl rfl⟩
      · exact ⟨h1, Or.inr h2⟩
    · rintro ⟨h1, h2 | h2⟩
      · exact Or.inl ⟨qx, h1, by rw [h2]⟩
      · exact Or.inr ⟨h1, h2⟩

theorem nodup_blocks {xs ys : List ℤ} (hxs : xs.Nodup) (hys : ys.Nodup) :
    (ys.foldr (fun y acc => xs.map (fun x : ℤ => (x, y)) ++ acc) []).Nodup := by
  induction ys with
  | nil => simp
  | cons y ys ih =>
    obtain ⟨hy, hys'⟩ := List.nodup_cons.mp hys
    simp only [List.foldr_cons]
    apply List.Nodup.append
    · exact List.Nodup.map (fun a b h => by simpa using congrArg Prod.fst h) hxs
    · exact ih hys'
    · intro q hq1 hq2
      obtain ⟨x, hx, rfl⟩ := List.mem_map.mp hq1
      exact hy (mem_blocks.mp hq2).2

theorem mem_gridCoords {xlo xhi ylo yhi : ℤ} {p : ℤ × ℤ} :
    p ∈ gridCoords xlo xhi ylo yhi ↔
      (xlo ≤ p.1 ∧ p.1 < xhi) ∧ (ylo ≤ p.2 ∧ p.2 < yhi) := by
  rw [gridCoords, mem_blocks, mem_pyRange, mem_pyRange]

theorem gridCoords_nodup (xlo xhi ylo yhi : ℤ) :
    (gridCoords xlo xhi ylo yhi).Nodup :=
  nodup_blocks (pyRange_nodup xlo xhi) (pyRange_nodup ylo yhi)

/-- A nested `for y: for x:` fold is the flat fold over `gridCoords`. -/
theorem foldl_nested {β : Type} (f : β → ℤ × ℤ → β) (xs ys : List ℤ) (init : β) :
    ys.foldl (fun b y => xs.foldl (fun bx x => f bx (x, y)) b) init
      = (ys.foldr (fun y acc => xs.map (fun x : ℤ => (x, y)) ++ acc) []).foldl f init := by
  induction ys generalizing init with
  | nil => rfl
  | cons y ys ih =>
    simp only [List.foldl_cons, List.foldr_cons, List.foldl_append, List.foldl_map]
    exact ih _

theorem fill_rect_eq (size : ℕ) (x1 y1 x2 y2 : ℚ) (r g b a : ℕ) (buf : List ℕ) :
    fill_rect size x1 y1 x2 y2 r g b a buf =
      (gridCoords (max 0 (pyint x1)) (min size (pyint x2))
          (max 0 (pyint y1)) (min size (pyint y2))).foldl
        (fun bf q => set_pixel size bf q.1 q.2 r g b a) buf := by
  unfold fill_rect gridCoords
  exact foldl_nested (fun bf q => set_pixel size bf q.1 q.2 r g b a) _ _ _

theorem fill_circle_eq (size : ℕ) (cx cy radius : ℚ) (r g b a : ℕ) (buf : List ℕ) :
    fill_circle size cx cy radius r g b a buf =
      (gridCoords (max 0 (pyint (cx - radius - 1))) (min size (pyint (cx + radius + 2)))
          (max 0 (pyint (cy - radius - 1))) (min size (pyint (cy + radius + 2)))).foldl
        (fun bf q =>
          if distF cx cy q.1 q.2 ≤ radius then set_pixel size bf q.1 q.2 r g b a
          else bf) buf := by
  unfold fill_circle gridCoords
  exact foldl_nested
    (fun bf q =>
      if distF cx cy q.1 q.2 ≤ radius then set_pixel size bf q.1 q.2 r g b a
      else bf) _ _ _

/-! ## `pyint` bounds -/

theorem pyint_intCast (n : ℤ) : pyint (n : ℚ) = n := by
  unfold pyint
  split_ifs <;> simp

theorem pyint_lt_add_one (q : ℚ) : (pyint q : ℚ) < q + 1 := by
  unfold pyint
  split_ifs with h
  · exact_mod_cast Int.ceil_lt_add_one q
  · have := Int.floor_le q
    linarith

theorem sub_one_lt_pyint (q : ℚ) : q - 1 < (pyint q : ℚ) := by
  unfold pyint
  split_ifs with h
  · have := Int.le_ceil q
    linarith
  · exact_mod_cast Int.sub_one_lt_floor q

/-! ## Per-pixel behaviour of the rasterizer primitives -/

/-- What `fill_rect` does to one in-bounds pixel: pixels inside the
truncated rectangle receive exactly one `set_pixel`, the rest are
untouched. -/
theorem cell_fill_rect (size : ℕ) (x1 y1 x2 y2 : ℚ) (r g b a : ℕ) (buf : List ℕ)
    (hlen : buf.length = size * size * 4) (p : ℤ × ℤ)
    (hp : 0 ≤ p.1 ∧ p.1 < size ∧ 0 ≤ p.2 ∧ p.2 < size) (k : ℕ) (hk : k < 4) :
    cell size (fill_rect size x1 y1 x2 y2 r g b a buf) p k =
      if pyint x1 ≤ p.1 ∧ p.1 < pyint x2 ∧ pyint y1 ≤ p.2 ∧ p.2 < pyint y2 then
        cell size (set_pixel size buf p.1 p.2 r g b a) p k
      else cell size buf p k := by
  rw [fill_rect_eq]
  have hframe : ∀ (bf : List ℕ) (q : ℤ × ℤ), q ≠ p → ∀ j, j < 4 →
      cell size (set_pixel size bf q.1 q.2 r g b a) p j = cell size bf p j := by
    intro bf q hq j hj
    exact cell_set_pixel_ne size bf q.1 q.2 r g b a p hp
      (fun hc => hq (Prod.ext hc.1 hc.2)) j hj
  by_cases hmem : p ∈ gridCoords (max 0 (pyint x1)) (min size (pyint x2))
      (max 0 (pyint y1)) (min size (pyint y2))
  · have hb := mem_gridCoords.mp hmem
    rw [if_pos (by omega : pyint x1 ≤ p.1 ∧ p.1 < pyint x2 ∧ pyint y1 ≤ p.2 ∧ p.2 < pyint y2)]
    exact cell_foldl_once size (size * size * 4) _ p
      (fun bf q => set_pixel_length size bf q.1 q.2 r g b a) hframe
      (fun b1 b2 h1 h2 hag j hj =>
        cell_set_pixel_agree size b1 b2 p.1 p.2 r g b a h1 h2 hag j hj)
      _ (gridCoords_nodup _ _ _ _) hmem buf hlen k hk
  · have hcond : ¬(pyint x1 ≤ p.1 ∧ p.1 < pyint x2 ∧ pyint y1 ≤ p.2 ∧ p.2 < pyint y2) := by
      intro hc
      exact hmem (mem_gridCoords.mpr ⟨⟨by omega, by omega⟩, by omega, by omega⟩)
    rw [if_neg hcond]
    exact cell_foldl_frame size _ p hframe _ hmem buf k hk

/-- What `fill_circle` does to one in-bounds pixel: pixels inside the
clipped bounding box passing the binary64 distance test receive exactly
one `set_pixel`, the rest (including everything outside the bounding box)
are untouched. -/
theorem cell_fill_circle (size : ℕ) (cx cy radius : ℚ) (r g b a : ℕ) (buf : List ℕ)
    (hlen : buf.length = size * size * 4) (px py : ℤ)
    (hp : 0 ≤ px ∧ px < size ∧ 0 ≤ py ∧ py < size) (k : ℕ) (hk : k < 4) :
    cell size (fill_circle size cx cy radius r g b a buf) (px, py) k =
      if max 0 (pyint (cx - radius - 1)) ≤ px ∧ px < min (size : ℤ) (pyint (cx + radius + 2))
          ∧ max 0 (pyint (cy - radius - 1)) ≤ py ∧ py < min (size : ℤ) (pyint (cy + radius + 2))
          ∧ distF cx cy px py ≤ radius then
        cell size (set_pixel size buf px py r g b a) (px, py) k
      else cell size buf (px, py) k := by
  rw [fill_circle_eq]
  have hframe : ∀ (bf : List ℕ) (q : ℤ × ℤ), q ≠ (px, py) → ∀ j, j < 4 →
      cell size
        (if distF cx cy q.1 q.2 ≤ radius then set_pixel size bf q.1 q.2 r g b a
          else bf) (px, py) j = cell size bf (px, py) j := by
    intro bf q hq j hj
    split_ifs with ht
    · exact cell_set_pixel_ne size bf q.1 q.2 r g b a (px, py)
        ⟨hp.1, hp.2.1, hp.2.2.1, hp.2.2.2⟩ (fun hc => hq (Prod.ext hc.1 hc.2)) j hj
    · rfl
  have hlenstep : ∀ (bf : List ℕ) (q : ℤ × ℤ),
      (if distF cx cy q.1 q.2 ≤ radius then set_pixel size bf q.1 q.2 r g b a
        else bf).length = bf.length := by
    intro bf q
    split_ifs with ht
    · exact set_pixel_length size bf q.1 q.2 r g b a
    · rfl
  have hloc : ∀ b1 b2 : List ℕ, b1.length = size * size * 4 → b2.length = size * size * 4 →
      (∀ j, j < 4 → cell size b1 (px, py) j = cell size b2 (px, py) j) → ∀ j, j < 4 →
      cell size
        (if distF cx cy px py ≤ radius then set_pixel size b1 px py r g b a
          else b1) (px, py) j =
      cell size
        (if distF cx cy px py ≤ radius then set_pixel size b2 px py r g b a
          else b2) (px, py) j := by
    intro b1 b2 h1 h2 hag j hj
    split_ifs with ht
    · exact cell_set_pixel_agree size b1 b2 px py r g b a h1 h2 hag j hj
    · exact hag j hj
  by_cases hmem : (px, py) ∈ gridCoords (max 0 (pyint (cx - radius - 1)))
      (min size (pyint (cx + radius + 2)))
      (max 0 (pyint (cy - radius - 1))) (min size (pyint (cy + radius + 2)))
  · have hb := mem_gridCoords.mp hmem
    have hres := cell_foldl_once size (size * size * 4) _ (px, py) hlenstep hframe hloc
      _ (gridCoords_nodup _ _ _ _) hmem buf hlen k hk
    by_cases ht : distF cx cy px py ≤ radius
    · rw [if_pos ⟨hb.1.1, hb.1.2, hb.2.1, hb.2.2, ht⟩, hres, if_pos ht]
    · rw [if_neg (fun hc => ht hc.2.2.2.2), hres, if_neg ht]
  · have hnc : ¬(max 0 (pyint (cx - radius - 1)) ≤ px
        ∧ px < min (size : ℤ) (pyint (cx + radius + 2))
        ∧ max 0 (pyint (cy - radius - 1)) ≤ py
        ∧ py < min (size : ℤ) (pyint (cy + radius + 2))
        ∧ distF cx cy px py ≤ radius) := by
      intro hc
      exact hmem (mem_gridCoords.mpr ⟨⟨hc.1, hc.2.1⟩, hc.2.2.1, hc.2.2.2.1⟩)
    rw [if_neg hnc]
    exact cell_foldl_frame size _ (px, py) hframe _ hmem buf k hk

/-! ## Branch-level descriptions of `set_pixel` -/

theorem getElem?_write4 (buf : List ℕ) (idx : ℕ) (h3 : idx + 3 < buf.length)
    (v0 v1 v2 v3 : ℕ) (n : ℕ) :
    ((((buf.set idx v0).set (idx + 1) v1).set (idx + 2) v2).set (idx + 3) v3)[n]? =
      if n = idx then some v0 else if n = idx + 1 then some v1
      else if n = idx + 2 then some v2 else if n = idx + 3 then some v3
      else buf[n]? := by
  simp only [List.getElem?_set, List.length_set]
  split_ifs <;> first | rfl | omega

theorem set_pixel_out_of_bounds (size : ℕ) (buf : List ℕ) (x y : ℤ) (r g b a : ℕ)
    (h : ¬(0 ≤ x ∧ x < (size : ℤ) ∧ 0 ≤ y ∧ y < size)) :
    set_pixel size buf x y r g b a = buf := by
  unfold set_pixel
  rw [if_neg h]

/-- Fully opaque write (`a = 255`): the pixel's four channels become exactly
`(r, g, b, 255)`, whatever was there before. -/
theorem cell_set_pixel_alpha255 (size : ℕ) (buf : List ℕ) (x y : ℤ) (r g b : ℕ)
    (hlen : buf.length = size * size * 4)
    (hin : 0 ≤ x ∧ x < (size : ℤ) ∧ 0 ≤ y ∧ y < size) (k : ℕ) (hk : k < 4) :
    cell size (set_pixel size buf x y r g b 255) (x, y) k =
      if k = 0 then r else if k = 1 then g else if k = 2 then b else 255 := by
  have hidx3 : pixIdx size x y + 3 < buf.length := by
    rw [hlen]; exact pixIdx_add_lt size hin.1 hin.2.1 hin.2.2.1 hin.2.2.2 (by omega)
  simp only [set_pixel, if_pos hin, cell, or_true, if_true]
  exact cell_write4 buf _ hidx3 _ _ _ _ _ hk

/-- Partial-alpha write onto an already painted pixel: weighted blend of the
color channels, additive clamped alpha. -/
theorem cell_set_pixel_blend (size : ℕ) (buf : List ℕ) (x y : ℤ) (r g b a : ℕ)
    (hlen : buf.length = size * size * 4)
    (hin : 0 ≤ x ∧ x < (size : ℤ) ∧ 0 ≤ y ∧ y < size)
    (ha0 : 0 < a) (ha255 : a ≠ 255)
    (hold : buf.getD (pixIdx size x y + 3) 0 ≠ 0) (k : ℕ) (hk : k < 4) :
    cell size (set_pixel size buf x y r g b a) (x, y) k =
      if k = 0 then blendChannel r (buf.getD (pixIdx size x y) 0) a
      else if k = 1 then blendChannel g (buf.getD (pixIdx size x y + 1) 0) a
      else if k = 2 then blendChannel b (buf.getD (pixIdx size x y + 2) 0) a
      else min 255 (buf.getD (pixIdx size x y + 3) 0 + a) := by
  have hidx3 : pixIdx size x y + 3 < buf.length := by
    rw [hlen]; exact pixIdx_add_lt size hin.1 hin.2.1 hin.2.2.1 hin.2.2.2 (by omega)
  simp only [set_pixel, if_pos hin]
  rw [if_neg (by tauto : ¬(buf.getD (pixIdx size x y + 3) 0 = 0 ∨ a = 255)),
    if_pos ha0]
  simp only [cell]
  exact cell_write4 buf _ hidx3 _ _ _ _ _ hk

/-- First-paint write (`old_a = 0`): outright overwrite, for every incoming
alpha including `a = 0`. -/
theorem cell_set_pixel_firstpaint (size : ℕ) (buf : List ℕ) (x y : ℤ) (r g b a : ℕ)
    (hlen : buf.length = size * size * 4)
    (hin : 0 ≤ x ∧ x < (size : ℤ) ∧ 0 ≤ y ∧ y < size)
    (hold : buf.getD (pixIdx size x y + 3) 0 = 0) (k : ℕ) (hk : k < 4) :
    cell size (set_pixel size buf x y r g b a) (x, y) k =
      if k = 0 then r else if k = 1 then g else if k = 2 then b else a := by
  have hidx3 : pixIdx size x y + 3 < buf.length := by
    rw [hlen]; exact pixIdx_add_lt size hin.1 hin.2.1 hin.2.2.1 hin.2.2.2 (by omega)
  simp only [set_pixel, if_pos hin, cell]
  rw [if_pos (Or.inl hold)]
  exact cell_write4 buf _ hidx3 _ _ _ _ _ hk

/-- Zero-alpha write onto an already painted pixel: a strict no-op. -/
theorem set_pixel_zero_alpha_noop (size : ℕ) (buf : List ℕ) (x y : ℤ) (r g b : ℕ)
    (hold : buf.getD (pixIdx size x y + 3) 0 ≠ 0) :
    set_pixel size buf x y r g b 0 = buf := by
  have hc : ¬(buf.getD (pixIdx size x y + 3) 0 = 0 ∨ (0 : ℕ) = 255) := by
    rintro (h | h)
    · exact hold h
    · omega
  unfold set_pixel
  by_cases hin : 0 ≤ x ∧ x < (size : ℤ) ∧ 0 ≤ y ∧ y < size
  · rw [if_pos hin, if_neg hc, if_neg (by omega : ¬(0 : ℕ) < 0)]
  · rw [if_neg hin]

/-! ## Container-encoder support -/

theorem crcBit_lt (c : ℕ) (h : c < 2 ^ 32) : crcBit c < 2 ^ 32 := by
  unfold crcBit
  split_ifs
  · exact Nat.xor_lt_two_pow (by omega) (by norm_num)
  · omega

theorem crcBits_lt (k c : ℕ) (h : c < 2 ^ 32) : crcBits k c < 2 ^ 32 := by
  induction k generalizing c with
  | zero => exact h
  | succ k ih => exact ih _ (crcBit_lt c h)

theorem crc32_lt (data : List ℕ) : crc32 data < 2 ^ 32 := by
  unfold crc32
  have : ∀ (l : List ℕ) (c : ℕ), c < 2 ^ 32 →
      l.foldl (fun c byt => crcBits 8 (c ^^^ byt % 256)) c < 2 ^ 32 := by
    intro l
    induction l with
    | nil => exact fun c h => h
    | cons b l ih =>
      intro c h
      exact ih _ (crcBits_lt 8 _ (Nat.xor_lt_two_pow h (by omega)))
  exact Nat.xor_lt_two_pow (this data 0xFFFFFFFF (by norm_num)) (by norm_num)

theorem be32_length (n : ℕ) : (be32 n).length = 4 := rfl

theorem pyBytes_eq (l : List ℕ) (h : ∀ v ∈ l, v < 256) : pyBytes l = some l := by
  unfold pyBytes
  rw [if_pos]
  simpa using h

theorem foldlM_option_isSome {α β : Type} (f : β → α → Option β) (L : List α)
    (init : β) (h : ∀ acc x, x ∈ L → (f acc x).isSome = true) :
    (L.foldlM f init).isSome = true := by
  induction L generalizing init with
  | nil => rfl
  | cons q L ih =>
    rw [List.foldlM_cons]
    have h1 := h init q (List.mem_cons_self q L)
    obtain ⟨b, hb⟩ := Option.isSome_iff_exists.mp h1
    rw [hb]
    exact ih b (fun acc x hx => h acc x (List.mem_cons_of_mem q hx))

theorem buildRow_isSome (width : ℕ) (pixels : List ℕ) (y : ℕ) (acc : List ℕ)
    (hp : ∀ v ∈ pixels, v < 256) : (buildRow width pixels y acc).isSome = true := by
  unfold buildRow
  apply foldlM_option_isSome
  intro r x _
  rw [pyBytes_eq _ (fun v hv => hp v
    (List.take_subset _ _ (by exact hv) |> List.drop_subset _ _))]
  rfl

theorem buildRaw_isSome (width height : ℕ) (pixels : List ℕ)
    (hp : ∀ v ∈ pixels, v < 256) : (buildRaw width height pixels).isSome = true := by
  unfold buildRaw
  apply foldlM_option_isSome
  intro raw y _
  exact buildRow_isSome width pixels y raw hp

/-! ## Rasterizer length preservation and glyph characterization -/

theorem fill_rect_length (size : ℕ) (x1 y1 x2 y2 : ℚ) (r g b a : ℕ)
    (buf : List ℕ) : (fill_rect size x1 y1 x2 y2 r g b a buf).length = buf.length := by
  rw [fill_rect_eq]
  exact foldl_step_length _ (fun bf q => set_pixel_length size bf q.1 q.2 r g b a) _ _

theorem fill_circle_length (size : ℕ) (cx cy radius : ℚ) (r g b a : ℕ)
    (buf : List ℕ) : (fill_circle size cx cy radius r g b a buf).length = buf.length := by
  rw [fill_circle_eq]
  apply foldl_step_length
  intro bf q
  split_ifs
  · exact set_pixel_length size bf q.1 q.2 r g b a
  · rfl

/-- Three stacked writes of the same value cover the union of their
conditions. -/
theorem ite_or3 {a : Type} (T V B : Prop) [Decidable T] [Decidable V] [Decidable B]
    (v c : a) :
    (if B then v else if V then v else if T then v else c)
      = if T ∨ V ∨ B then v else c := by
  by_cases hB : B <;> by_cases hV : V <;> by_cases hT : T <;> simp [hB, hV, hT]

/-- Full-opacity `fill_rect` with integer corners, per pixel. -/
theorem cell_fill_rect_int (size : ℕ) (x1 y1 x2 y2 : ℤ) (r g b : ℕ) (buf : List ℕ)
    (hlen : buf.length = size * size * 4) (p : ℤ × ℤ)
    (hp : 0 ≤ p.1 ∧ p.1 < size ∧ 0 ≤ p.2 ∧ p.2 < size) (k : ℕ) (hk : k < 4) :
    cell size (fill_rect size (x1 : ℚ) (y1 : ℚ) (x2 : ℚ) (y2 : ℚ) r g b 255 buf) p k =
      if x1 ≤ p.1 ∧ p.1 < x2 ∧ y1 ≤ p.2 ∧ p.2 < y2 then
        if k = 0 then r else if k = 1 then g else if k = 2 then b else 255
      else cell size buf p k := by
  obtain ⟨px, py⟩ := p
  rw [cell_fill_rect _ _ _ _ _ _ _ _ _ _ hlen (px, py) hp k hk]
  simp only [pyint_intCast]
  by_cases hc : x1 ≤ px ∧ px < x2 ∧ y1 ≤ py ∧ py < y2
  · rw [if_pos hc, if_pos hc]
    exact cell_set_pixel_alpha255 _ _ _ _ _ _ _ hlen hp k hk
  · rw [if_neg hc, if_neg hc]

/-- The exact pixel set painted by `draw_letter_i`, for an in-bounds pixel:
the union of the top bar, the code's actual vertical bar
`[sx + w/2 - barW/2, sx + w/2 + barW/2 + 1)` (width `2*(barW/2) + 1`), and
the bottom bar; painted pixels carry `(color, 255)`, others are untouched. -/
theorem cell_draw_letter_i (size : ℕ) (sx sy w h : ℤ) (color : ℕ × ℕ × ℕ)
    (buf : List ℕ) (hlen : buf.length = size * size * 4) (p : ℤ × ℤ)
    (hp : 0 ≤ p.1 ∧ p.1 < size ∧ 0 ≤ p.2 ∧ p.2 < size) (k : ℕ) (hk : k < 4) :
    cell size (draw_letter_i size sx sy w h color buf) p k =
      if (sx ≤ p.1 ∧ p.1 < sx + w ∧ sy ≤ p.2 ∧ p.2 < sy + max 2 (Int.fdiv w 3))
        ∨ (sx + Int.fdiv w 2 - Int.fdiv (max 2 (Int.fdiv w 3)) 2 ≤ p.1 ∧
            p.1 < sx + Int.fdiv w 2 + Int.fdiv (max 2 (Int.fdiv w 3)) 2 + 1 ∧
            sy ≤ p.2 ∧ p.2 < sy + h)
        ∨ (sx ≤ p.1 ∧ p.1 < sx + w ∧ sy + h - max 2 (Int.fdiv w 3) ≤ p.2 ∧ p.2 < sy + h)
      then if k = 0 then color.1 else if k = 1 then color.2.1
        else if k = 2 then color.2.2 else 255
      else cell size buf p k := by
  obtain ⟨px, py⟩ := p
  simp only [draw_letter_i]
  rw [cell_fill_rect_int size sx (sy + h - max 2 (Int.fdiv w 3)) (sx + w) (sy + h)
      color.1 color.2.1 color.2.2 _
      (by rw [fill_rect_length, fill_rect_length]; exact hlen) _ hp k hk,
    cell_fill_rect_int size (sx + Int.fdiv w 2 - Int.fdiv (max 2 (Int.fdiv w 3)) 2) sy
      (sx + Int.fdiv w 2 + Int.fdiv (max 2 (Int.fdiv w 3)) 2 + 1) (sy + h)
      color.1 color.2.1 color.2.2 _ (by rw [fill_rect_length]; exact hlen) _ hp k hk,
    cell_fill_rect_int size sx sy (sx + w) (sy + max 2 (Int.fdiv w 3))
      color.1 color.2.1 color.2.2 _ hlen _ hp k hk]
  exact ite_or3 _ _ _ _ _

/-! ## Opaque overwrite: explicit form and idempotence -/

theorem set_pixel_opaque_eq (size : ℕ) (buf : List ℕ) (x y : ℤ) (r g b : ℕ)
    (hin : 0 ≤ x ∧ x < (size : ℤ) ∧ 0 ≤ y ∧ y < size) :
    set_pixel size buf x y r g b 255 =
      (((buf.set (pixIdx size x y) r).set (pixIdx size x y + 1) g).set
        (pixIdx size x y + 2) b).set (pixIdx size x y + 3) 255 := by
  unfold set_pixel
  rw [if_pos hin, if_pos (Or.inr rfl)]

theorem write4_idem (l : List ℕ) (idx : ℕ) (h3 : idx + 3 < l.length)
    (v0 v1 v2 v3 : ℕ) :
    (((((((l.set idx v0).set (idx + 1) v1).set (idx + 2) v2).set (idx + 3) v3).set
        idx v0).set (idx + 1) v1).set (idx + 2) v2).set (idx + 3) v3
      = (((l.set idx v0).set (idx + 1) v1).set (idx + 2) v2).set (idx + 3) v3 := by
  apply List.ext_getElem?
  intro n
  rw [getElem?_write4 ((((l.set idx v0).set (idx + 1) v1).set (idx + 2) v2).set (idx + 3) v3)
    idx (by simp [List.length_set]; omega) v0 v1 v2 v3 n]
  simp only [getElem?_write4 l idx h3 v0 v1 v2 v3]
  split_ifs <;> rfl

theorem set_pixel_opaque_idem (size : ℕ) (buf : List ℕ) (x y : ℤ) (r g b : ℕ)
    (hlen : buf.length = size * size * 4) :
    set_pixel size (set_pixel size buf x y r g b 255) x y r g b 255
      = set_pixel size buf x y r g b 255 := by
  by_cases hin : 0 ≤ x ∧ x < (size : ℤ) ∧ 0 ≤ y ∧ y < size
  · have hidx3 : pixIdx size x y + 3 < buf.length := by
      rw [hlen]; exact pixIdx_add_lt size hin.1 hin.2.1 hin.2.2.1 hin.2.2.2 (by omega)
    rw [set_pixel_opaque_eq size buf x y r g b hin,
      set_pixel_opaque_eq size _ x y r g b hin]
    exact write4_idem buf (pixIdx size x y) hidx3 r g b 255
  · rw [set_pixel_out_of_bounds size _ x y r g b 255 hin,
      set_pixel_out_of_bounds size buf x y r g b 255 hin]

/-! ## Concrete evaluation of the binary64 rounding chain -/

theorem rnde_of_lt_half (x : ℚ) (n : ℤ) (hfl : ⌊x⌋ = n) (h : x - n < 1/2) :
    rnde x = n := by
  unfold rnde
  rw [hfl, if_pos h]

theorem expOf_bracket (q : ℚ) (hq : 0 < q) :
    (2 : ℚ) ^ expOf q ≤ q ∧ q < 2 ^ (expOf q + 1) := by
  have hnum : 0 < q.num := Rat.num_pos.mpr hq
  have hden : 0 < q.den := q.pos
  have hnabs : ((q.num.natAbs : ℚ)) = (q.num : ℚ) := by
    rw [Int.cast_natAbs]
    exact_mod_cast abs_of_nonneg (le_of_lt hnum)
  have hn1 : (2 : ℚ) ^ (Nat.log2 q.num.natAbs : ℤ) ≤ (q.num : ℚ) := by
    rw [zpow_natCast, ← hnabs]
    exact_mod_cast Nat.log2_self_le (by omega : q.num.natAbs ≠ 0)
  have hn2 : (q.num : ℚ) < 2 ^ ((Nat.log2 q.num.natAbs : ℤ) + 1) := by
    rw [show ((Nat.log2 q.num.natAbs : ℤ) + 1) = ((Nat.log2 q.num.natAbs + 1 : ℕ) : ℤ) by
        push_cast; ring,
      zpow_natCast, ← hnabs]
    exact_mod_cast Nat.lt_log2_self
  have hd1 : (2 : ℚ) ^ (Nat.log2 q.den : ℤ) ≤ (q.den : ℚ) := by
    rw [zpow_natCast]
    exact_mod_cast Nat.log2_self_le (by omega : q.den ≠ 0)
  have hd2 : (q.den : ℚ) < 2 ^ ((Nat.log2 q.den : ℤ) + 1) := by
    rw [show ((Nat.log2 q.den : ℤ) + 1) = ((Nat.log2 q.den + 1 : ℕ) : ℤ) by push_cast; ring,
      zpow_natCast]
    exact_mod_cast Nat.lt_log2_self
  set A : ℤ := (Nat.log2 q.num.natAbs : ℤ) with hA
  set B : ℤ := (Nat.log2 q.den : ℤ) with hB
  have hqeq : q = (q.num : ℚ) / (q.den : ℚ) := (Rat.num_div_den q).symm
  have hdenpos : (0 : ℚ) < (q.den : ℚ) := by exact_mod_cast hden
  have hlow : (2 : ℚ) ^ (A - B - 1) < q := by
    rw [hqeq, lt_div_iff₀ hdenpos]
    calc (2 : ℚ) ^ (A - B - 1) * (q.den : ℚ)
        < 2 ^ (A - B - 1) * 2 ^ (B + 1) :=
          mul_lt_mul_of_pos_left hd2 (zpow_pos (by norm_num) _)
      _ = 2 ^ A := by
          rw [← zpow_add₀ (by norm_num : (2 : ℚ) ≠ 0)]
          ring_nf
      _ ≤ (q.num : ℚ) := hn1
  have hhigh : q < (2 : ℚ) ^ (A - B + 1) := by
    rw [hqeq, div_lt_iff₀ hdenpos]
    calc (q.num : ℚ) < 2 ^ (A + 1) := hn2
      _ = 2 ^ (A - B + 1) * 2 ^ B := by
          rw [← zpow_add₀ (by norm_num : (2 : ℚ) ≠ 0)]
          ring_nf
      _ ≤ 2 ^ (A - B + 1) * (q.den : ℚ) :=
          mul_le_mul_of_nonneg_left hd1 (le_of_lt (zpow_pos (by norm_num) _))
  have hE : expOf q = if (2 : ℚ) ^ (A - B) ≤ q then A - B else A - B - 1 := rfl
  rw [hE]
  split_ifs with hc
  · exact ⟨hc, hhigh⟩
  · refine ⟨le_of_lt hlow, ?_⟩
    rw [show A - B - 1 + 1 = A - B by ring]
    exact lt_of_not_ge hc

theorem expOf_unique (q : ℚ) (k : ℤ) (h1 : (2 : ℚ) ^ k ≤ q) (h2 : q < 2 ^ (k + 1)) :
    expOf q = k := by
  have hq : 0 < q := lt_of_lt_of_le (zpow_pos (by norm_num) k) h1
  obtain ⟨b1, b2⟩ := expOf_bracket q hq
  by_contra hne
  rcases lt_or_gt_of_ne hne with hlt | hgt
  · have h3 : (2 : ℚ) ^ (expOf q + 1) ≤ 2 ^ k :=
      zpow_le_zpow_right₀ (by norm_num) (by omega)
    linarith
  · have h3 : (2 : ℚ) ^ (k + 1) ≤ 2 ^ expOf q :=
      zpow_le_zpow_right₀ (by norm_num) (by omega)
    linarith

theorem flPos_eq (q : ℚ) (k : ℤ) (h1 : (2 : ℚ) ^ k ≤ q) (h2 : q < 2 ^ (k + 1)) :
    flPos q = (rnde (q * 2 ^ ((52 : ℤ) - k)) : ℚ) / 2 ^ ((52 : ℤ) - k) := by
  have hq : 0 < q := lt_of_lt_of_le (zpow_pos (by norm_num) k) h1
  unfold flPos
  rw [if_neg (ne_of_gt hq), expOf_unique q k h1 h2]

theorem fl_of_nonneg (q : ℚ) (h : 0 ≤ q) : fl q = flPos q := by
  unfold fl
  rw [if_neg (not_lt.mpr h)]

theorem rnde_intCast (n : ℤ) : rnde (n : ℚ) = n := by
  unfold rnde
  rw [Int.floor_intCast, if_pos (by norm_num)]

/-- A rational whose 53-bit significand is an integer is a fixed point of
binary64 rounding. -/
theorem fl_eq_self (q : ℚ) (k : ℤ) (h0 : 0 ≤ q) (h1 : (2 : ℚ) ^ k ≤ q)
    (h2 : q < 2 ^ (k + 1)) (n : ℤ) (hn : q * 2 ^ ((52 : ℤ) - k) = (n : ℚ)) :
    fl q = q := by
  rw [fl_of_nonneg q h0, flPos_eq q k h1 h2, hn, rnde_intCast, ← hn,
    mul_div_cancel_right₀ q (ne_of_gt (by positivity))]

theorem fl_one : fl 1 = 1 :=
  fl_eq_self 1 0 (by norm_num) (by norm_num) (by norm_num) (2 ^ 52) (by norm_num)

theorem fl_five : fl 5 = 5 :=
  fl_eq_self 5 2 (by norm_num) (by norm_num) (by norm_num) (5 * 2 ^ 50) (by norm_num)

theorem fl_twentyfive : fl 25 = 25 :=
  fl_eq_self 25 4 (by norm_num) (by norm_num) (by norm_num) (25 * 2 ^ 48) (by norm_num)

theorem fl_twentysix : fl 26 = 26 :=
  fl_eq_self 26 4 (by norm_num) (by norm_num) (by norm_num) (26 * 2 ^ 48) (by norm_num)

theorem natSqrt_eval (C N : ℕ) (h1 : N * N ≤ C) (h2 : C < (N + 1) * (N + 1)) :
    Nat.sqrt C = N := by
  have hl : N ≤ Nat.sqrt C := Nat.le_sqrt.mpr h1
  have hu : Nat.sqrt C < N + 1 := Nat.sqrt_lt.mpr h2
  omega

/-- `rndeSqrt` on a natural number that sits strictly below the rounding
midpoint of its integer square root. -/
theorem rndeSqrt_natCast (C N : ℕ) (h1 : N * N ≤ C) (h2 : C < (N + 1) * (N + 1))
    (h3 : ((C : ℕ) : ℚ) < (N : ℚ) ^ 2 + (N : ℚ) + 1/4) :
    rndeSqrt ((C : ℕ) : ℚ) = (N : ℤ) := by
  simp only [rndeSqrt]
  rw [Int.floor_natCast, Int.toNat_natCast, natSqrt_eval C N h1 h2,
    if_pos (by push_cast; exact h3)]

theorem sqrtF_pos_eq (q : ℚ) (k2 : ℤ) (hq : 0 < q) (hk : Int.fdiv (expOf q) 2 = k2) :
    sqrtF q = (rndeSqrt (q * 4 ^ ((52 : ℤ) - k2)) : ℚ) / 2 ^ ((52 : ℤ) - k2) := by
  unfold sqrtF
  rw [if_neg (not_le.mpr hq), hk]

/-- The binary64 value of `math.sqrt(26.0)`: `5.0990195135927845`, i.e.
`5740985595342838 / 2^50 = 2870492797671419 / 2^49` — strictly BELOW the
real `√26`, so its square is below `26`. -/
theorem sqrtF_twentysix : sqrtF 26 = 2870492797671419 / 2 ^ 49 := by
  rw [sqrtF_pos_eq 26 2 (by norm_num)
    (by rw [expOf_unique 26 4 (by norm_num) (by norm_num)]; decide)]
  rw [show (26 : ℚ) * 4 ^ ((52 : ℤ) - 2)
      = ((32958915605933964438914283339776 : ℕ) : ℚ) from by norm_num]
  rw [rndeSqrt_natCast 32958915605933964438914283339776 5740985595342838
    (by norm_num) (by norm_num) (by norm_num)]
  norm_num

/-- The float distance from center `(0, 0)` to pixel `(1, 5)`: every
intermediate value (`1`, `5`, `1`, `25`, `26`) is exactly representable,
so the distance is exactly the double `math.sqrt(26.0)`. -/
theorem distF_one_five : distF 0 0 1 5 = 2870492797671419 / 2 ^ 49 := by
  unfold distF
  rw [show ((1 : ℤ) : ℚ) - 0 = 1 from by norm_num,
    show ((5 : ℤ) : ℚ) - 0 = 5 from by norm_num, fl_one, fl_five]
  rw [show (1 : ℚ) ^ 2 = 1 from by norm_num, show (5 : ℚ) ^ 2 = 25 from by norm_num,
    fl_one, fl_twentyfive]
  rw [show (1 : ℚ) + 25 = 26 from by norm_num, fl_twentysix]
  exact sqrtF_twentysix

theorem pyint_bbox_lo : pyint (0 - 2870492797671419 / 2 ^ 49 - 1) = -6 := by
  unfold pyint
  rw [if_pos (by norm_num)]
  exact Int.ceil_eq_iff.mpr (by constructor <;> norm_num)

theorem pyint_bbox_hi : pyint (0 + 2870492797671419 / 2 ^ 49 + 2) = 7 := by
  unfold pyint
  rw [if_neg (by norm_num)]
  exact Int.floor_eq_iff.mpr (by constructor <;> norm_num)

/-- The blend arithmetic at `c = old = a = 5`: every one of the five
binary64 roundings evaluated exactly.  The float result is
`4.999999999999999…`, so `int()` yields 4 — one below the exact weighted
sum, which is exactly 5. -/
theorem blendChannel_five : blendChannel 5 5 5 = 4 := by
  have hfa : fl ((5 : ℚ) / 255) = 5651576002974740 / 2 ^ 58 := by
    rw [fl_of_nonneg _ (by norm_num), flPos_eq ((5 : ℚ) / 255) (-6) (by norm_num) (by norm_num),
      show (52 : ℤ) - (-6) = 58 by norm_num,
      rnde_of_lt_half ((5 : ℚ) / 255 * 2 ^ (58 : ℤ)) 5651576002974740
        (Int.floor_eq_iff.mpr (by norm_num)) (by norm_num)]
    norm_num
  have hom : fl (1 - (5651576002974740 : ℚ) / 2 ^ 58) = 8830587504648031 / 2 ^ 53 := by
    rw [fl_of_nonneg _ (by norm_num),
      flPos_eq (1 - (5651576002974740 : ℚ) / 2 ^ 58) (-1) (by norm_num) (by norm_num),
      show (52 : ℤ) - (-1) = 53 by norm_num,
      rnde_of_lt_half ((1 - (5651576002974740 : ℚ) / 2 ^ 58) * 2 ^ (53 : ℤ)) 8830587504648031
        (Int.floor_eq_iff.mpr (by norm_num)) (by norm_num)]
    norm_num
  have ht1 : fl (5 * ((5651576002974740 : ℚ) / 2 ^ 58)) = 7064470003718425 / 2 ^ 56 := by
    rw [fl_of_nonneg _ (by norm_num),
      flPos_eq (5 * ((5651576002974740 : ℚ) / 2 ^ 58)) (-4) (by norm_num) (by norm_num),
      show (52 : ℤ) - (-4) = 56 by norm_num,
      rnde_of_lt_half (5 * ((5651576002974740 : ℚ) / 2 ^ 58) * 2 ^ (56 : ℤ)) 7064470003718425
        (Int.floor_eq_iff.mpr (by norm_num)) (by norm_num)]
    norm_num
  have ht2 : fl (5 * ((8830587504648031 : ℚ) / 2 ^ 53)) = 5519117190405019 / 2 ^ 50 := by
    rw [fl_of_nonneg _ (by norm_num),
      flPos_eq (5 * ((8830587504648031 : ℚ) / 2 ^ 53)) 2 (by norm_num) (by norm_num),
      show (52 : ℤ) - 2 = 50 by norm_num,
      rnde_of_lt_half (5 * ((8830587504648031 : ℚ) / 2 ^ 53) * 2 ^ (50 : ℤ)) 5519117190405019
        (Int.floor_eq_iff.mpr (by norm_num)) (by norm_num)]
    norm_num
  have hs : fl ((7064470003718425 : ℚ) / 2 ^ 56 + (5519117190405019 : ℚ) / 2 ^ 50)
      = 5629499534213119 / 2 ^ 50 := by
    rw [fl_of_nonneg _ (by norm_num),
      flPos_eq ((7064470003718425 : ℚ) / 2 ^ 56 + (5519117190405019 : ℚ) / 2 ^ 50) 2
        (by norm_num) (by norm_num),
      show (52 : ℤ) - 2 = 50 by norm_num,
      rnde_of_lt_half (((7064470003718425 : ℚ) / 2 ^ 56 + (5519117190405019 : ℚ) / 2 ^ 50)
        * 2 ^ (50 : ℤ)) 5629499534213119
        (Int.floor_eq_iff.mpr (by norm_num)) (by norm_num)]
    norm_num
  unfold blendChannel
  simp only [Nat.cast_ofNat]
  rw [hfa, hom, ht1, ht2, hs,
    show ⌊(5629499534213119 : ℚ) / 2 ^ 50⌋ = 4 from Int.floor_eq_iff.mpr (by norm_num)]
  rfl

/-- On a well-formed buffer, the instrumented Python-semantics `set_pixel`
never raises and agrees with the total model: every buffer access is in
bounds. -/
theorem set_pixelChecked_eq (size : ℕ) (buf : List ℕ) (x y : ℤ) (r g b a : ℕ)
    (hlen : buf.length = size * size * 4) :
    set_pixelChecked size buf x y r g b a = some (set_pixel size buf x y r g b a) := by
  by_cases hin : 0 ≤ x ∧ x < (size : ℤ) ∧ 0 ≤ y ∧ y < size
  · obtain ⟨hx, hx2, hy, hy2⟩ := hin
    have h0 : pixIdx size x y < buf.length := by
      rw [hlen]
      have := pixIdx_add_lt size hx hx2 hy hy2 (by omega : (0 : ℕ) < 4)
      omega
    have h1 : pixIdx size x y + 1 < buf.length := by
      rw [hlen]; exact pixIdx_add_lt size hx hx2 hy hy2 (by omega)
    have h2 : pixIdx size x y + 2 < buf.length := by
      rw [hlen]; exact pixIdx_add_lt size hx hx2 hy hy2 (by omega)
    have h3 : pixIdx size x y + 3 < buf.length := by
      rw [hlen]; exact pixIdx_add_lt size hx hx2 hy hy2 (by omega)
    have hg0 : buf.getD (pixIdx size x y) 0 = buf[pixIdx size x y] := by
      rw [List.getD_eq_getElem?_getD, List.getElem?_eq_getElem h0]
      rfl
    have hg1 : buf.getD (pixIdx size x y + 1) 0 = buf[pixIdx size x y + 1] := by
      rw [List.getD_eq_getElem?_getD, List.getElem?_eq_getElem h1]
      rfl
    have hg2 : buf.getD (pixIdx size x y + 2) 0 = buf[pixIdx size x y + 2] := by
      rw [List.getD_eq_getElem?_getD, List.getElem?_eq_getElem h2]
      rfl
    have hg3 : buf.getD (pixIdx size x y + 3) 0 = buf[pixIdx size x y + 3] := by
      rw [List.getD_eq_getElem?_getD, List.getElem?_eq_getElem h3]
      rfl
    unfold set_pixelChecked set_pixel
    rw [if_pos ⟨hx, hx2, hy, hy2⟩, if_pos ⟨hx, hx2, hy, hy2⟩]
    simp only [List.getElem?_eq_getElem h0, List.getElem?_eq_getElem h1,
      List.getElem?_eq_getElem h2, List.getElem?_eq_getElem h3, hg0, hg1, hg2, hg3,
      if_pos h3]
    split_ifs <;> rfl
  · unfold set_pixelChecked set_pixel
    rw [if_neg hin, if_neg hin]

set_option maxRecDepth 20000 in
/-- Sanity check of the `zlib.crc32` model against the standard CRC-32 test
vector: the checksum of the ASCII string "123456789" is `0xCBF43926`. -/
theorem crc32_test_vector : crc32 [49, 50, 51, 52, 53, 54, 55, 56, 57] = 0xCBF43926 := by
  decide

/-! ## Claims -/

/-- Claim C1, counterexample: the claim predicts that the stored red channel
is the truncation toward zero of the exact weighted sum
`r * (a/255) + old * (1 - a/255)`.  At `r = old = a = 5` (old alpha 10) the
exact weighted sum is exactly 5, but the code's float evaluation lands just
below 5 and `int()` stores 4. -/
theorem C1_claim_counterexample :
    cell 1 (set_pixel 1 [5, 5, 5, 10] 0 0 5 5 5 5) (0, 0) 0
      ≠ Int.toNat ⌊(5 : ℚ) * (5 / 255) + 5 * (1 - 5 / 255)⌋ := by
  have h := cell_set_pixel_blend 1 [5, 5, 5, 10] 0 0 5 5 5 5 (by decide) (by decide)
    (by decide) (by decide) (by decide) 0 (by decide)
  rw [h, if_pos rfl, show ([5, 5, 5, 10] : List ℕ).getD (pixIdx 1 0 0) 0 = 5 from by decide,
    blendChannel_five,
    show ⌊(5 : ℚ) * (5 / 255) + 5 * (1 - 5 / 255)⌋ = 5 from Int.floor_eq_iff.mpr (by norm_num)]
  decide

/-- Claim C1 (amended): for every in-bounds pixel write with `0 < a < 255`
onto a pixel whose existing alpha is positive, each of the red/green/blue
channels becomes the weighted sum `in_channel * fa + old_channel * (1 - fa)`
with `fa = a/255`, truncated toward zero AFTER evaluation in IEEE-754
binary64 float arithmetic (`blendChannel`) — which can land one below the
truncation of the exact weighted sum — and the resulting alpha is
`min (255, old_a + a)`. -/
theorem C1_blend_semantics (size : ℕ) (buf : List ℕ) (x y : ℤ) (r g b a : ℕ)
    (hlen : buf.length = size * size * 4)
    (hin : 0 ≤ x ∧ x < (size : ℤ) ∧ 0 ≤ y ∧ y < size)
    (ha0 : 0 < a) (ha : a < 255)
    (hold : 0 < buf.getD (pixIdx size x y + 3) 0) :
    cell size (set_pixel size buf x y r g b a) (x, y) 0
        = blendChannel r (cell size buf (x, y) 0) a
    ∧ cell size (set_pixel size buf x y r g b a) (x, y) 1
        = blendChannel g (cell size buf (x, y) 1) a
    ∧ cell size (set_pixel size buf x y r g b a) (x, y) 2
        = blendChannel b (cell size buf (x, y) 2) a
    ∧ cell size (set_pixel size buf x y r g b a) (x, y) 3
        = min 255 (cell size buf (x, y) 3 + a) := by
  refine ⟨?_, ?_, ?_, ?_⟩
  · rw [cell_set_pixel_blend size buf x y r g b a hlen hin ha0 (by omega) (by omega)
      0 (by omega), if_pos rfl]
    simp only [cell, Nat.add_zero]
  · rw [cell_set_pixel_blend size buf x y r g b a hlen hin ha0 (by omega) (by omega)
      1 (by omega), if_neg (by norm_num), if_pos rfl]
    simp only [cell]
  · rw [cell_set_pixel_blend size buf x y r g b a hlen hin ha0 (by omega) (by omega)
      2 (by omega), if_neg (by norm_num), if_neg (by norm_num), if_pos rfl]
    simp only [cell]
  · rw [cell_set_pixel_blend size buf x y r g b a hlen hin ha0 (by omega) (by omega)
      3 (by omega), if_neg (by norm_num), if_neg (by norm_num), if_neg (by norm_num)]
    simp only [cell]

/-- Witness for C1 at the concrete input of the counterexample. -/
theorem C1_blend_semantics_witness :
    cell 1 (set_pixel 1 [5, 5, 5, 10] 0 0 5 5 5 5) (0, 0) 0
        = blendChannel 5 (cell 1 [5, 5, 5, 10] (0, 0) 0) 5
    ∧ cell 1 (set_pixel 1 [5, 5, 5, 10] 0 0 5 5 5 5) (0, 0) 1
        = blendChannel 5 (cell 1 [5, 5, 5, 10] (0, 0) 1) 5
    ∧ cell 1 (set_pixel 1 [5, 5, 5, 10] 0 0 5 5 5 5) (0, 0) 2
        = blendChannel 5 (cell 1 [5, 5, 5, 10] (0, 0) 2) 5
    ∧ cell 1 (set_pixel 1 [5, 5, 5, 10] 0 0 5 5 5 5) (0, 0) 3
        = min 255 (cell 1 [5, 5, 5, 10] (0, 0) 3 + 5) :=
  C1_blend_semantics 1 [5, 5, 5, 10] 0 0 5 5 5 5 (by decide) (by decide) (by decide)
    (by decide) (by decide)

/-- Claim C2: every chunk is serialized as the 4-byte big-endian payload
length, the 4-byte type label, the payload, and the 4-byte big-endian CRC-32
of (type label ++ payload). -/
theorem C2_chunk_layout (ct data : List ℕ) (h4 : ct.length = 4)
    (hlen : data.length < 2 ^ 32) :
    (chunk ct data).length = 12 + data.length
    ∧ (chunk ct data).take 4 = be32 data.length
    ∧ ((chunk ct data).drop 4).take 4 = ct
    ∧ ((chunk ct data).drop 8).take data.length = data
    ∧ (chunk ct data).drop (8 + data.length) = be32 (crc32 (ct ++ data)) := by
  have hrw : chunk ct data
      = be32 data.length ++ (ct ++ (data ++ be32 (crc32 (ct ++ data)))) := by
    simp only [chunk]
    rw [Nat.mod_eq_of_lt (crc32_lt _)]
    simp [List.append_assoc]
  refine ⟨?_, ?_, ?_, ?_, ?_⟩
  · rw [hrw]
    simp only [List.length_append, be32_length, h4]
    omega
  · rw [hrw]
    exact List.take_left' (be32_length _)
  · rw [hrw, List.drop_left' (be32_length _)]
    exact List.take_left' h4
  · rw [hrw, show be32 data.length ++ (ct ++ (data ++ be32 (crc32 (ct ++ data))))
        = (be32 data.length ++ ct) ++ (data ++ be32 (crc32 (ct ++ data))) by
          simp [List.append_assoc],
      List.drop_left' (by simp only [List.length_append, be32_length, h4]),
      List.take_left' rfl]
  · rw [hrw, show be32 data.length ++ (ct ++ (data ++ be32 (crc32 (ct ++ data))))
        = ((be32 data.length ++ ct) ++ data) ++ be32 (crc32 (ct ++ data)) by
          simp [List.append_assoc]]
    exact List.drop_left' (by simp only [List.length_append, be32_length, h4])

/-- Witness for C2: the IEND-style chunk with a one-byte payload. -/
theorem C2_chunk_layout_witness :
    (chunk [73, 69, 78, 68] [7]).length = 12 + ([7] : List ℕ).length
    ∧ (chunk [73, 69, 78, 68] [7]).take 4 = be32 ([7] : List ℕ).length
    ∧ ((chunk [73, 69, 78, 68] [7]).drop 4).take 4 = [73, 69, 78, 68]
    ∧ ((chunk [73, 69, 78, 68] [7]).drop 8).take ([7] : List ℕ).length = [7]
    ∧ (chunk [73, 69, 78, 68] [7]).drop (8 + ([7] : List ℕ).length)
        = be32 (crc32 ([73, 69, 78, 68] ++ [7])) :=
  C2_chunk_layout [73, 69, 78, 68] [7] (by decide) (by decide)

/-- Claim C3, counterexample: a write with `a = 0` onto a pixel whose stored
alpha is 0 is NOT a no-op — the `old_a == 0` fast path overwrites the color
channels (here `(5,6,7,0)` becomes `(1,2,3,0)`). -/
theorem C3_claim_counterexample :
    set_pixel 1 [5, 6, 7, 0] 0 0 1 2 3 0 ≠ [5, 6, 7, 0] := by decide

/-- Claim C3 (amended): a pixel write with `a = 0` leaves the canvas
unchanged when the target is out of bounds or when the existing alpha is
positive; when the target is in bounds with existing alpha 0, the sample is
overwritten with `(r, g, b, 0)` instead. -/
theorem C3_zero_alpha (size : ℕ) (buf : List ℕ) (x y : ℤ) (r g b : ℕ)
    (hlen : buf.length = size * size * 4) :
    (¬(0 ≤ x ∧ x < (size : ℤ) ∧ 0 ≤ y ∧ y < size) →
      set_pixel size buf x y r g b 0 = buf)
    ∧ ((0 ≤ x ∧ x < (size : ℤ) ∧ 0 ≤ y ∧ y < size) →
      0 < buf.getD (pixIdx size x y + 3) 0 → set_pixel size buf x y r g b 0 = buf)
    ∧ ((0 ≤ x ∧ x < (size : ℤ) ∧ 0 ≤ y ∧ y < size) →
      buf.getD (pixIdx size x y + 3) 0 = 0 →
        cell size (set_pixel size buf x y r g b 0) (x, y) 0 = r
        ∧ cell size (set_pixel size buf x y r g b 0) (x, y) 1 = g
        ∧ cell size (set_pixel size buf x y r g b 0) (x, y) 2 = b
        ∧ cell size (set_pixel size buf x y r g b 0) (x, y) 3 = 0) := by
  refine ⟨fun hout => set_pixel_out_of_bounds size buf x y r g b 0 hout,
    fun hin hpos => set_pixel_zero_alpha_noop size buf x y r g b (by omega),
    fun hin h0 => ⟨?_, ?_, ?_, ?_⟩⟩ <;>
    rw [cell_set_pixel_firstpaint size buf x y r g b 0 hlen hin h0 _ (by omega)] <;>
    rfl

/-- Witness for C3 at the concrete input of the counterexample. -/
theorem C3_zero_alpha_witness :
    cell 1 (set_pixel 1 [5, 6, 7, 0] 0 0 1 2 3 0) (0, 0) 0 = 1
    ∧ cell 1 (set_pixel 1 [5, 6, 7, 0] 0 0 1 2 3 0) (0, 0) 1 = 2
    ∧ cell 1 (set_pixel 1 [5, 6, 7, 0] 0 0 1 2 3 0) (0, 0) 2 = 3
    ∧ cell 1 (set_pixel 1 [5, 6, 7, 0] 0 0 1 2 3 0) (0, 0) 3 = 0 :=
  (C3_zero_alpha 1 [5, 6, 7, 0] 0 0 1 2 3 (by decide)).2.2 (by decide) (by decide)

set_option maxRecDepth 40000 in
/-- Claim C4, counterexample: the encoder does NOT fail on a width/height
pair inconsistent with the buffer length — with an empty pixel buffer and
1×1 dimensions it silently produces output (truncated rows), so "fails iff
inconsistent" is false. -/
theorem C4_claim_counterexample :
    ¬(((create_png (fun l => l) 1 1 []).isSome = false)
        ↔ ([] : List ℕ).length ≠ 1 * 1 * 4) := by decide

/-- Claim C4 (amended): `create_png` performs no width/height-vs-buffer
validation at all: whenever every channel value is a byte and the
dimensions fit in 32 bits, it succeeds for EVERY buffer length, silently
truncating missing pixel data; it can only fail on out-of-range channel
values (or unpackable dimensions). -/
theorem C4_no_validation (compress : List ℕ → List ℕ) (width height : ℕ)
    (pixels : List ℕ) (hw : width < 2 ^ 32) (hh : height < 2 ^ 32)
    (hp : ∀ v ∈ pixels, v < 256) :
    (create_png compress width height pixels).isSome = true := by
  unfold create_png
  rw [if_pos ⟨hw, hh⟩]
  obtain ⟨raw, hraw⟩ := Option.isSome_iff_exists.mp
    (buildRaw_isSome width height pixels hp)
  rw [hraw]
  rfl

set_option maxRecDepth 40000 in
/-- Witness for C4: a 1×1 image with a 2-entry (hence inconsistent) buffer
still encodes. -/
theorem C4_no_validation_witness :
    (create_png (fun l => l) 1 1 [9, 9]).isSome = true :=
  C4_no_validation (fun l => l) 1 1 [9, 9] (by decide) (by decide) (by decide)

/-- Counterexample to claim C5 as stated: `fill_circle` does NOT blend
exactly the pixels with exact Euclidean distance ≤ radius.  With
`radius = 2870492797671419 / 2^49` — the exact value of the double
`math.sqrt(26.0) = 5.0990195135927845`, which rounds BELOW the real `√26` —
the pixel `(1, 5)` at exact distance `√26 > radius` from center `(0, 0)`
(first conjunct: `radius² < 1² + 5²`) is nevertheless painted by the
program (second conjunct: its alpha goes from 0 to 255 on an 8×8 blank
canvas), because the binary64 evaluation of
`math.sqrt((1-0)**2 + (5-0)**2)` yields exactly `radius`, and the source
compares with `<=`. -/
theorem C5_claim_counterexample :
    ((2870492797671419 : ℚ) / 2 ^ 49) ^ 2 < ((1 : ℚ) - 0) ^ 2 + ((5 : ℚ) - 0) ^ 2
    ∧ cell 8 (fill_circle 8 0 0 (2870492797671419 / 2 ^ 49) 9 9 9 255
        (List.replicate 256 0)) (1, 5) 3 = 255
    ∧ cell 8 (List.replicate 256 0) (1, 5) 3 = 0 := by
  refine ⟨by norm_num, ?_, by decide⟩
  rw [cell_fill_circle 8 0 0 (2870492797671419 / 2 ^ 49) 9 9 9 255
    (List.replicate 256 0) (by norm_num [List.length_replicate]) 1 5
    (by norm_num) 3 (by norm_num)]
  rw [pyint_bbox_lo, pyint_bbox_hi, distF_one_five]
  rw [if_pos ⟨by decide, by decide, by decide, by decide, le_refl _⟩]
  rw [cell_set_pixel_alpha255 8 (List.replicate 256 0) 1 5 9 9 9
    (by norm_num [List.length_replicate]) (by norm_num) 3 (by norm_num)]
  decide

/-- Claim C5 (amended): `fill_circle` blends exactly those in-bounds integer
pixels that lie in the clipped bounding box
`[cx-r-1, cx+r+2) × [cy-r-1, cy+r+2)` (truncated by `int()`) AND whose
distance from `(cx, cy)` as computed in binary64 float arithmetic
(`math.sqrt((x-cx)**2 + (y-cy)**2)`, i.e. `distF`) is ≤ radius — a hard
threshold with no antialiasing, but on the FLOAT distance, which can differ
from the exact Euclidean comparison at boundary pixels; every other pixel,
including everything outside the clipped bounding box, is untouched. -/
theorem C5_fill_circle_float (size : ℕ) (cx cy radius : ℚ) (r g b a : ℕ)
    (buf : List ℕ) (hlen : buf.length = size * size * 4) (px py : ℤ)
    (hp : 0 ≤ px ∧ px < (size : ℤ) ∧ 0 ≤ py ∧ py < size) (k : ℕ) (hk : k < 4) :
    ((max 0 (pyint (cx - radius - 1)) ≤ px ∧ px < min (size : ℤ) (pyint (cx + radius + 2))
        ∧ max 0 (pyint (cy - radius - 1)) ≤ py ∧ py < min (size : ℤ) (pyint (cy + radius + 2))
        ∧ distF cx cy px py ≤ radius) →
      cell size (fill_circle size cx cy radius r g b a buf) (px, py) k
        = cell size (set_pixel size buf px py r g b a) (px, py) k)
    ∧ (¬(max 0 (pyint (cx - radius - 1)) ≤ px ∧ px < min (size : ℤ) (pyint (cx + radius + 2))
        ∧ max 0 (pyint (cy - radius - 1)) ≤ py ∧ py < min (size : ℤ) (pyint (cy + radius + 2))
        ∧ distF cx cy px py ≤ radius) →
      cell size (fill_circle size cx cy radius r g b a buf) (px, py) k
        = cell size buf (px, py) k) := by
  refine ⟨fun ht => ?_, fun ht => ?_⟩
  · rw [cell_fill_circle size cx cy radius r g b a buf hlen px py hp k hk, if_pos ht]
  · rw [cell_fill_circle size cx cy radius r g b a buf hlen px py hp k hk, if_neg ht]

/-- Witness for C5 (amended): pixel `(1, 5)` of the counterexample circle —
inside the clipped bounding box `[0, 7) × [0, 7)` of the 8×8 canvas with
float distance exactly equal to the radius, hence blended. -/
theorem C5_fill_circle_float_witness :
    cell 8 (fill_circle 8 0 0 (2870492797671419 / 2 ^ 49) 9 9 9 255
        (List.replicate 256 0)) (1, 5) 3
      = cell 8 (set_pixel 8 (List.replicate 256 0) 1 5 9 9 9 255) (1, 5) 3 :=
  (C5_fill_circle_float 8 0 0 (2870492797671419 / 2 ^ 49) 9 9 9 255
    (List.replicate 256 0) (by norm_num [List.length_replicate]) 1 5
    (by norm_num) 3 (by norm_num)).1
    ⟨by rw [pyint_bbox_lo]; decide, by rw [pyint_bbox_hi]; decide,
     by rw [pyint_bbox_lo]; decide, by rw [pyint_bbox_hi]; decide,
     le_of_eq distF_one_five⟩

/-- Claim C6: an in-bounds write with `a = 255` stores exactly
`(r, g, b, 255)` regardless of prior content, and repeating the same
full-opacity write is idempotent (buffer-for-buffer). -/
theorem C6_opaque_overwrite (size : ℕ) (buf : List ℕ) (x y : ℤ) (r g b : ℕ)
    (hlen : buf.length = size * size * 4)
    (hin : 0 ≤ x ∧ x < (size : ℤ) ∧ 0 ≤ y ∧ y < size) :
    cell size (set_pixel size buf x y r g b 255) (x, y) 0 = r
    ∧ cell size (set_pixel size buf x y r g b 255) (x, y) 1 = g
    ∧ cell size (set_pixel size buf x y r g b 255) (x, y) 2 = b
    ∧ cell size (set_pixel size buf x y r g b 255) (x, y) 3 = 255
    ∧ set_pixel size (set_pixel size buf x y r g b 255) x y r g b 255
        = set_pixel size buf x y r g b 255 := by
  refine ⟨?_, ?_, ?_, ?_, set_pixel_opaque_idem size buf x y r g b hlen⟩ <;>
    rw [cell_set_pixel_alpha255 size buf x y r g b hlen hin _ (by omega)] <;>
    rfl

/-- Witness for C6 on a nontrivially prefilled 1×1 canvas. -/
theorem C6_opaque_overwrite_witness :
    cell 1 (set_pixel 1 [9, 9, 9, 7] 0 0 1 2 3 255) (0, 0) 0 = 1
    ∧ cell 1 (set_pixel 1 [9, 9, 9, 7] 0 0 1 2 3 255) (0, 0) 1 = 2
    ∧ cell 1 (set_pixel 1 [9, 9, 9, 7] 0 0 1 2 3 255) (0, 0) 2 = 3
    ∧ cell 1 (set_pixel 1 [9, 9, 9, 7] 0 0 1 2 3 255) (0, 0) 3 = 255
    ∧ set_pixel 1 (set_pixel 1 [9, 9, 9, 7] 0 0 1 2 3 255) 0 0 1 2 3 255
        = set_pixel 1 [9, 9, 9, 7] 0 0 1 2 3 255 :=
  C6_opaque_overwrite 1 [9, 9, 9, 7] 0 0 1 2 3 (by decide) (by decide)

/-- Claim C7: icon generation is deterministic — the composer and the
encoder are pure functions of their inputs (the embedding is a pure
function precisely because the source uses no randomness, time, or other
ambient state; `math.pi`/`cos`/`sin` and `zlib.compress` are fixed
deterministic functions, abstracted as parameters), so two runs on
identical inputs produce byte-identical output streams. -/
theorem C7_determinism (piQ : ℚ) (cosF sinF : ℚ → ℚ) (size : ℕ)
    (fg bg tc : ℕ × ℕ × ℕ) (compress : List ℕ → List ℕ) :
    create_png compress size size (draw_gear_icon piQ cosF sinF size fg bg tc)
      = create_png compress size size (draw_gear_icon piQ cosF sinF size fg bg tc) :=
  rfl

/-- Claim C8, counterexample: with glyph box `(sx, sy, w, h) = (0, 0, 6, 5)`
on an 8×8 canvas, `barW = max 2 (6 / 3) = 2`; the claim's glyph (top bar
`y ∈ [0, 2)`, bottom bar `y ∈ [3, 5)`, centered vertical bar of width
exactly `barW`, i.e. `x ∈ [2, 4)`) does not contain pixel `(4, 2)`, yet
`draw_letter_i` paints it (the code's vertical bar is `[2, 5)`, width 3). -/
theorem C8_claim_counterexample :
    (¬(((0 : ℤ) ≤ 4 ∧ (4 : ℤ) < 0 + 6 ∧ (0 : ℤ) ≤ 2 ∧ (2 : ℤ) < 0 + 2)
        ∨ ((0 : ℤ) + 3 - 1 ≤ 4 ∧ (4 : ℤ) < 0 + 3 - 1 + 2 ∧ (0 : ℤ) ≤ 2 ∧ (2 : ℤ) < 0 + 5)
        ∨ ((0 : ℤ) ≤ 4 ∧ (4 : ℤ) < 0 + 6 ∧ (0 : ℤ) + 5 - 2 ≤ 2 ∧ (2 : ℤ) < 0 + 5)))
    ∧ cell 8 (draw_letter_i 8 0 0 6 5 (9, 9, 9) (List.replicate 256 0)) (4, 2) 3 = 255
    ∧ cell 8 (List.replicate 256 0) (4, 2) 3 = 0 := by
  refine ⟨by decide, ?_, by decide⟩
  rw [cell_draw_letter_i 8 0 0 6 5 (9, 9, 9) (List.replicate 256 0) (by norm_num [List.length_replicate]) (4, 2)
    (by norm_num) 3 (by norm_num)]
  rw [if_pos (by decide)]
  rfl

/-- Claim C8 (amended): within bounding box `(sx, sy, w, h)` the letter "i"
has stroke thickness `barW = max 2 (w / 3)` (floor division) and consists of
a full-width top bar of thickness `barW`, a centered vertical bar spanning
the full height whose width is `2 * (barW / 2) + 1` — that is `barW` when
`barW` is odd but `barW + 1` when `barW` is even — and a full-width bottom
bar of thickness `barW`; nothing else is painted. -/
theorem C8_letter_i_geometry (size : ℕ) (sx sy w h : ℤ) (color : ℕ × ℕ × ℕ)
    (buf : List ℕ) (hlen : buf.length = size * size * 4) (p : ℤ × ℤ)
    (hp : 0 ≤ p.1 ∧ p.1 < (size : ℤ) ∧ 0 ≤ p.2 ∧ p.2 < size) (k : ℕ) (hk : k < 4) :
    (cell size (draw_letter_i size sx sy w h color buf) p k =
      if (sx ≤ p.1 ∧ p.1 < sx + w ∧ sy ≤ p.2 ∧ p.2 < sy + max 2 (Int.fdiv w 3))
        ∨ (sx + Int.fdiv w 2 - Int.fdiv (max 2 (Int.fdiv w 3)) 2 ≤ p.1 ∧
            p.1 < sx + Int.fdiv w 2 + Int.fdiv (max 2 (Int.fdiv w 3)) 2 + 1 ∧
            sy ≤ p.2 ∧ p.2 < sy + h)
        ∨ (sx ≤ p.1 ∧ p.1 < sx + w ∧ sy + h - max 2 (Int.fdiv w 3) ≤ p.2 ∧ p.2 < sy + h)
      then if k = 0 then color.1 else if k = 1 then color.2.1
        else if k = 2 then color.2.2 else 255
      else cell size buf p k)
    ∧ ((sx + Int.fdiv w 2 + Int.fdiv (max 2 (Int.fdiv w 3)) 2 + 1)
        - (sx + Int.fdiv w 2 - Int.fdiv (max 2 (Int.fdiv w 3)) 2)
        = (if (max 2 (Int.fdiv w 3)) % 2 = 0 then max 2 (Int.fdiv w 3) + 1
          else max 2 (Int.fdiv w 3))) := by
  refine ⟨cell_draw_letter_i size sx sy w h color buf hlen p hp k hk, ?_⟩
  have h2 : Int.fdiv (max 2 (Int.fdiv w 3)) 2 = (max 2 (Int.fdiv w 3)) / 2 := by
    rw [Int.fdiv_eq_ediv _ (by omega)]
  rw [h2]
  split_ifs with hpar <;> omega

/-- Witness for C8 at the counterexample's input and pixel. -/
theorem C8_letter_i_geometry_witness :
    (cell 8 (draw_letter_i 8 0 0 6 5 (9, 9, 9) (List.replicate 256 0)) (4, 2) 3 =
      if ((0 : ℤ) ≤ (4 : ℤ) ∧ (4 : ℤ) < 0 + 6 ∧ (0 : ℤ) ≤ (2 : ℤ) ∧
            (2 : ℤ) < 0 + max 2 (Int.fdiv 6 3))
        ∨ ((0 : ℤ) + Int.fdiv 6 2 - Int.fdiv (max 2 (Int.fdiv 6 3)) 2 ≤ (4 : ℤ) ∧
            (4 : ℤ) < 0 + Int.fdiv 6 2 + Int.fdiv (max 2 (Int.fdiv 6 3)) 2 + 1 ∧
            (0 : ℤ) ≤ (2 : ℤ) ∧ (2 : ℤ) < 0 + 5)
        ∨ ((0 : ℤ) ≤ (4 : ℤ) ∧ (4 : ℤ) < 0 + 6 ∧
            (0 : ℤ) + 5 - max 2 (Int.fdiv 6 3) ≤ (2 : ℤ) ∧ (2 : ℤ) < 0 + 5)
      then if (3 : ℕ) = 0 then 9 else if (3 : ℕ) = 1 then 9
        else if (3 : ℕ) = 2 then 9 else 255
      else cell 8 (List.replicate 256 0) (4, 2) 3)
    ∧ (((0 : ℤ) + Int.fdiv 6 2 + Int.fdiv (max 2 (Int.fdiv 6 3)) 2 + 1)
        - ((0 : ℤ) + Int.fdiv 6 2 - Int.fdiv (max 2 (Int.fdiv 6 3)) 2)
        = (if (max 2 (Int.fdiv 6 3)) % 2 = 0 then max 2 (Int.fdiv 6 3) + 1
          else max 2 (Int.fdiv 6 3))) :=
  C8_letter_i_geometry 8 0 0 6 5 (9, 9, 9) (List.replicate 256 0) (by norm_num [List.length_replicate]) (4, 2)
    (by norm_num) 3 (by norm_num)

/-- Claim C9: at `size = 1` no buffer access of `set_pixel` is ever out of
bounds — the instrumented Python-semantics model never raises and agrees
with the total model for all arguments — and every write outside the single
pixel `(0, 0)` is silently clipped to a no-op. -/
theorem C9_size_one_safe (buf : List ℕ) (x y : ℤ) (r g b a : ℕ)
    (hlen : buf.length = 1 * 1 * 4) :
    set_pixelChecked 1 buf x y r g b a = some (set_pixel 1 buf x y r g b a)
    ∧ (¬(x = 0 ∧ y = 0) → set_pixel 1 buf x y r g b a = buf) := by
  refine ⟨set_pixelChecked_eq 1 buf x y r g b a hlen, fun hne => ?_⟩
  apply set_pixel_out_of_bounds
  rintro ⟨h1, h2, h3, h4⟩
  apply hne
  constructor <;> omega

/-- Witness for C9: an out-of-canvas write on a 1×1 buffer. -/
theorem C9_size_one_safe_witness :
    set_pixelChecked 1 [1, 2, 3, 4] (-5) 0 9 9 9 255
        = some (set_pixel 1 [1, 2, 3, 4] (-5) 0 9 9 9 255)
    ∧ (¬((-5 : ℤ) = 0 ∧ (0 : ℤ) = 0) → set_pixel 1 [1, 2, 3, 4] (-5) 0 9 9 9 255
        = [1, 2, 3, 4]) :=
  C9_size_one_safe [1, 2, 3, 4] (-5) 0 9 9 9 255 (by decide)

/-- Claim C10: for every pixel of a well-formed canvas (stored alpha at most
255), no `set_pixel` call — any arguments, any alpha, in or out of bounds —
ever lowers the stored alpha of any pixel. -/
theorem C10_alpha_monotone (size : ℕ) (buf : List ℕ) (x y : ℤ) (r g b a : ℕ)
    (px py : ℤ) (hpx : 0 ≤ px ∧ px < (size : ℤ)) (hpy : 0 ≤ py ∧ py < (size : ℤ))
    (hlen : buf.length = size * size * 4)
    (hwf : cell size buf (px, py) 3 ≤ 255) :
    cell size buf (px, py) 3 ≤ cell size (set_pixel size buf x y r g b a) (px, py) 3 := by
  by_cases hin : 0 ≤ x ∧ x < (size : ℤ) ∧ 0 ≤ y ∧ y < size
  · by_cases hsame : x = px ∧ y = py
    · obtain ⟨rfl, rfl⟩ := hsame
      by_cases h0 : buf.getD (pixIdx size x y + 3) 0 = 0
      · rw [cell_set_pixel_firstpaint size buf x y r g b a hlen hin h0 3 (by omega)]
        rw [show cell size buf (x, y) 3 = buf.getD (pixIdx size x y + 3) 0 from rfl, h0]
        exact Nat.zero_le _
      · by_cases h255 : a = 255
        · subst h255
          rw [cell_set_pixel_alpha255 size buf x y r g b hlen hin 3 (by omega),
            if_neg (by norm_num), if_neg (by norm_num), if_neg (by norm_num)]
          exact hwf
        · by_cases ha0 : 0 < a
          · rw [cell_set_pixel_blend size buf x y r g b a hlen hin ha0 h255 h0 3
              (by omega), if_neg (by norm_num), if_neg (by norm_num),
              if_neg (by norm_num)]
            rw [show cell size buf (x, y) 3 = buf.getD (pixIdx size x y + 3) 0
              from rfl] at hwf ⊢
            omega
          · have ha : a = 0 := by omega
            subst ha
            rw [set_pixel_zero_alpha_noop size buf x y r g b h0]
    · rw [cell_set_pixel_ne size buf x y r g b a (px, py)
        ⟨hpx.1, hpx.2, hpy.1, hpy.2⟩ hsame 3 (by omega)]
  · rw [set_pixel_out_of_bounds size buf x y r g b a hin]

/-- Witness for C10: a partial-alpha blend on top of alpha 10. -/
theorem C10_alpha_monotone_witness :
    cell 1 [5, 5, 5, 10] (0, 0) 3
      ≤ cell 1 (set_pixel 1 [5, 5, 5, 10] 0 0 5 5 5 5) (0, 0) 3 :=
  C10_alpha_monotone 1 [5, 5, 5, 10] 0 0 5 5 5 5 0 0 (by decide) (by decide)
    (by decide) (by decide)

end GenerateIcons
